import Mathlib

/-!
Verification of `langroid/language_models/base.py` (and the task-tool
provenance behaviour exercised by `tests/main/test_task_tool.py`).

Python strings are modelled as `List Char`; Python dicts of JSON-able
values as association lists over a `Json` type (JSON numbers are modelled
as integers; floating-point values are outside the shallow embedding).
Python functions that can raise are modelled with `Except`/`Option`.
Helpers from `langroid.parsing.*` (`parse_message`, `top_level_json_field`,
`parse_imperfect_json`) are not part of the sources under verification;
they are taken as parameters or modelled from the spec where needed.
-/

set_option maxRecDepth 4000

namespace Langroid

/-- Python strings, modelled as lists of characters. -/
abbrev Str := List Char

/-- Python `sub in s` (substring containment; `"" in s` is always true). -/
def pyContains (sub : Str) : Str → Bool
  | [] => sub.isEmpty
  | c :: rest => sub.isPrefixOf (c :: rest) || pyContains sub rest

/-- Fuel-driven worker for `pySplit`; the fuel is always at least the length
of the string, so the `0` case with a non-empty string is never reached. -/
def pySplitF (sep : Str) : Nat → Str → List Str
  | _, [] => [[]]
  | 0, s => [s]
  | fuel + 1, c :: rest =>
    if sep ≠ [] ∧ sep.isPrefixOf (c :: rest) then
      [] :: pySplitF sep fuel (rest.drop (sep.length - 1))
    else
      match pySplitF sep fuel rest with
      | [] => [[c]]
      | h :: t => (c :: h) :: t

/-- Python `s.split(sep)` for a non-empty separator (Python raises
`ValueError` on an empty separator; call sites model that case). -/
def pySplit (sep s : Str) : List Str := pySplitF sep s.length s

/-- Characters stripped by Python `str.strip()`. -/
def isPySpace (c : Char) : Bool :=
  c = ' ' || c = '\t' || c = '\n' || c = '\r' || c = '\x0b' || c = '\x0c'

/-- Python `s.strip()`. -/
def pyStrip (s : Str) : Str :=
  ((s.dropWhile isPySpace).reverse.dropWhile isPySpace).reverse

/-- Python `s.replace("\n", "")`. -/
def removeNewlines (s : Str) : Str := s.filter (fun c => c ≠ '\n')

/-- JSON values (the universe of Python dict/list/str/int/bool/None values
carried in function-call arguments).  Numbers are modelled as integers. -/
inductive Json where
  | null
  | bool (b : Bool)
  | num (n : Int)
  | str (s : Str)
  | arr (elems : List Json)
  | obj (fields : List (Str × Json))

/-- Python `v == ""` for a JSON value (only the empty string is equal). -/
def Json.isEmptyStr : Json → Bool
  | .str [] => true
  | _ => false

/-- Whether a JSON value is a mapping (`isinstance(v, dict)`). -/
def Json.isObj : Json → Bool
  | .obj _ => true
  | _ => false

/-- Python `v is None` for a parsed JSON value: JSON `null` parses to
Python `None`. -/
def Json.isNull : Json → Bool
  | .null => true
  | _ => false

/-- The dict key `"recipient"`. -/
def recipientKey : Str := ['r', 'e', 'c', 'i', 'p', 'i', 'e', 'n', 't']

/-! ## Data model of `base.py` -/

/-- `Role` enum from `base.py`. -/
inductive Role where
  | user
  | system
  | assistant
  | function
  | tool
deriving DecidableEq

/-- `LLMFunctionCall`: name of the function plus optional argument mapping. -/
structure LLMFunctionCall where
  name : Str
  arguments : Option (List (Str × Json)) := none

/-- `OpenAIToolCall`: id, type (always `"function"`) and optional call. -/
structure OpenAIToolCall where
  id : Option Str := none
  type : Str := ['f', 'u', 'n', 'c', 't', 'i', 'o', 'n']
  function : Option LLMFunctionCall := none

/-- `LLMTokenUsage`: per-model usage accumulator.  The monetary `cost`
(a Python float) is modelled as a rational; the claims never depend on
floating-point rounding. -/
structure LLMTokenUsage where
  prompt_tokens : Int := 0
  cached_tokens : Int := 0
  completion_tokens : Int := 0
  cost : ℚ := 0
  calls : Int := 0
deriving DecidableEq

/-- `LLMResponse`: one model reply. -/
structure LLMResponse where
  message : Str
  reasoning : Str := []
  tool_id : Str := []
  oai_tool_calls : Option (List OpenAIToolCall) := none
  function_call : Option LLMFunctionCall := none
  usage : Option LLMTokenUsage := none
  cached : Bool := false

/-! ## Recipient resolution (`LLMResponse.get_recipient_and_message`)

`parse_message` (the `"TO: <name> <content>"` parser) and
`top_level_json_field` live in `langroid.parsing`, outside the sources
under verification; the resolution function takes them as parameters
`pm` and `tljf`.  `tljf` returns the empty string when no top-level
`recipient` field is found. -/

/-- The per-tool-call recipient check from the loop in
`get_recipient_and_message` (lines 419-425 of `base.py`): the call's
`recipient` argument when the call and its argument mapping are present
and the value passes `recipient is not None and recipient != ""`.  A
missing key makes `args.get("recipient")` return `None`, and a JSON
`null` value is Python `None` after parsing, so both are skipped. -/
def tcRecipient (tc : OpenAIToolCall) : Option Json :=
  match tc.function with
  | none => none
  | some f =>
    match f.arguments with
    | none => none
    | some args =>
      match List.lookup recipientKey args with
      | none => none
      | some v => if v.isNull || v.isEmptyStr then none else some v

/-- First tool call carrying a non-empty `recipient`, scanning in order. -/
def firstToolRecipient : List OpenAIToolCall → Option Json
  | [] => none
  | tc :: rest =>
    match tcRecipient tc with
    | some v => some v
    | none => firstToolRecipient rest

/-- Text-based addressing (lines 430-437 of `base.py`): first the
`"TO: <name>"` parse, then the top-level JSON `recipient` probe, keeping
the whole message as content in the latter case. -/
def textResolve (pm : Str → Str × Str) (tljf : Str → Str → Str) (msg : Str) :
    Json × Str :=
  let pr := pm msg
  if pr.1 = [] then
    let rn := if msg = [] then [] else tljf msg recipientKey
    (Json.str rn, msg)
  else (Json.str pr.1, pr.2)

/-- `LLMResponse.get_recipient_and_message`.  Returns the recipient (a JSON
value: the code returns the raw `recipient` argument) and the content. -/
def get_recipient_and_message (pm : Str → Str × Str) (tljf : Str → Str → Str)
    (self : LLMResponse) : Json × Str :=
  match self.function_call with
  | some fc =>
    let recipient : Json :=
      match fc.arguments with
      | some args => (List.lookup recipientKey args).getD (Json.str [])
      | none => Json.str []
    (recipient, [])
  | none =>
    let viaTool : Option Json :=
      match self.oai_tool_calls with
      | some tcs => firstToolRecipient tcs
      | none => none
    match viaTool with
    | some v => (v, [])
    | none => textResolve pm tljf self.message

/-! ### Helper lemmas about the tool-call scan -/

theorem firstToolRecipient_append (pre : List OpenAIToolCall)
    (tc : OpenAIToolCall) (rest : List OpenAIToolCall) (v : Json)
    (hpre : ∀ x ∈ pre, tcRecipient x = none) (hv : tcRecipient tc = some v) :
    firstToolRecipient (pre ++ tc :: rest) = some v := by
  induction pre with
  | nil => simp [firstToolRecipient, hv]
  | cons a t ih =>
    have ha : tcRecipient a = none := hpre a (by simp)
    simp only [List.cons_append, firstToolRecipient, ha]
    exact ih (fun x hx => hpre x (by simp [hx]))

theorem firstToolRecipient_none (tcs : List OpenAIToolCall)
    (h : ∀ x ∈ tcs, tcRecipient x = none) : firstToolRecipient tcs = none := by
  induction tcs with
  | nil => rfl
  | cons a t ih =>
    have ha : tcRecipient a = none := h a (by simp)
    simp only [firstToolRecipient, ha]
    exact ih (fun x hx => h x (by simp [hx]))

/-! ## Claim C1 -/

/-- C1: whenever an `LLMResponse` carries a function call, recipient
resolution ignores the message text (and the text parsers) entirely and
returns `(r, "")`, where `r` is the call's `recipient` argument when the
argument mapping contains one and the empty string otherwise. -/
theorem function_call_recipient_priority (pm : Str → Str × Str)
    (tljf : Str → Str → Str) (resp : LLMResponse) (fc : LLMFunctionCall)
    (h : resp.function_call = some fc) :
    get_recipient_and_message pm tljf resp =
      ((List.lookup recipientKey (fc.arguments.getD [])).getD (Json.str []),
        []) := by
  unfold get_recipient_and_message
  rw [h]
  cases ha : fc.arguments <;> simp [ha]

/-- A `parse_message` stand-in that would address `"Y"` from the text
`"TO: Y hi"`; the resolution must ignore it when a function call exists. -/
def pmDemo : Str → Str × Str := fun _ => (['Y'], ['h', 'i'])

/-- A `top_level_json_field` stand-in that never finds a recipient. -/
def tljfDemo : Str → Str → Str := fun _ _ => []

/-- A response with both a function call carrying `recipient="X"` and a
message text reading `"TO: Y hi"`. -/
def respC1 : LLMResponse :=
  { message := ['T', 'O', ':', ' ', 'Y', ' ', 'h', 'i'],
    function_call := some
      { name := ['f'], arguments := some [(recipientKey, Json.str ['X'])] } }

/-- C1 witness: at the concrete response above, resolution returns
`("X", "")` even though the text says `"TO: Y hi"`. -/
theorem function_call_recipient_priority_witness :
    get_recipient_and_message pmDemo tljfDemo respC1 = (Json.str ['X'], []) :=
  function_call_recipient_priority pmDemo tljfDemo respC1
    { name := ['f'], arguments := some [(recipientKey, Json.str ['X'])] } rfl

/-! ## Claim C2 -/

/-- C2: with no function call but a tool-call list present, resolution
returns `(v, "")` for the first tool call carrying a non-empty `recipient`
argument; when no tool call carries one, it falls through to text-based
addressing applied to the original message text. -/
theorem tool_call_recipient_scan (pm : Str → Str × Str)
    (tljf : Str → Str → Str) (resp : LLMResponse)
    (tcs : List OpenAIToolCall) (h1 : resp.function_call = none)
    (h2 : resp.oai_tool_calls = some tcs) :
    (∀ pre tc rest v, tcs = pre ++ tc :: rest →
      (∀ x ∈ pre, tcRecipient x = none) → tcRecipient tc = some v →
      get_recipient_and_message pm tljf resp = (v, [])) ∧
    ((∀ x ∈ tcs, tcRecipient x = none) →
      get_recipient_and_message pm tljf resp =
        textResolve pm tljf resp.message) := by
  constructor
  · intro pre tc rest v hdec hpre hv
    simp only [get_recipient_and_message, h1, h2, hdec,
      firstToolRecipient_append pre tc rest v hpre hv]
  · intro hall
    simp only [get_recipient_and_message, h1, h2,
      firstToolRecipient_none tcs hall]

/-- A tool call with no recipient argument. -/
def tcNoRecipient : OpenAIToolCall :=
  { function := some { name := ['g'], arguments := some [] } }

/-- A tool call whose `recipient` argument is JSON `null` (Python `None`
after parsing), skipped by the loop's `recipient is not None` check. -/
def tcNullRecipient : OpenAIToolCall :=
  { function := some
      { name := ['g'], arguments := some [(recipientKey, Json.null)] } }

/-- A tool call whose `recipient` argument is `"X"`. -/
def tcToX : OpenAIToolCall :=
  { function := some
      { name := ['g'], arguments := some [(recipientKey, Json.str ['X'])] } }

/-- A response with three tool calls: the first without a recipient, the
second with a JSON-null recipient, the third addressed to `"X"`. -/
def respC2 : LLMResponse :=
  { message := ['h', 'i'],
    oai_tool_calls := some [tcNoRecipient, tcNullRecipient, tcToX] }

/-- C2 witness: the scan skips the recipient-less and the null-recipient
calls and returns the third tool call's recipient `"X"` with empty
content. -/
theorem tool_call_recipient_scan_witness :
    get_recipient_and_message pmDemo tljfDemo respC2 = (Json.str ['X'], []) :=
  (tool_call_recipient_scan pmDemo tljfDemo respC2
      [tcNoRecipient, tcNullRecipient, tcToX] rfl rfl).1
    [tcNoRecipient, tcNullRecipient] tcToX [] (Json.str ['X']) rfl
    (by intro x hx
        simp at hx
        rcases hx with h | h <;> subst h <;> rfl) rfl

/-! ## Reasoning extraction (`LanguageModel.get_reasoning_final`)

The method reads the configured `thought_delimiters` pair and the message;
both are taken as arguments here.  The Python body is

```
start, end = self.config.thought_delimiters
if start in message and end in message:
    parts = message.split(start)
    if len(parts) > 1:
        reasoning, final = parts[1].split(end)
        return reasoning, final
return "", message
```

The two-element tuple unpacking of `parts[1].split(end)` raises
`ValueError` whenever that split does not produce exactly two pieces, and
`str.split` raises on an empty separator; both are modelled as `.error`. -/

/-- Python `ValueError`. -/
inductive PyErr where
  | valueError
deriving DecidableEq

/-- `LanguageModel.get_reasoning_final` over the configured delimiters. -/
def get_reasoning_final (start end_ message : Str) :
    Except PyErr (Str × Str) :=
  if pyContains start message && pyContains end_ message then
    if start = [] then .error .valueError
    else
      let parts := pySplit start message
      if h : 1 < parts.length then
        if end_ = [] then .error .valueError
        else
          match pySplit end_ (parts.get ⟨1, h⟩) with
          | [r, f] => .ok (r, f)
          | _ => .error .valueError
      else .ok ([], message)
  else .ok ([], message)

/-- The default start delimiter `"<think>"`. -/
def thinkStart : Str := ['<', 't', 'h', 'i', 'n', 'k', '>']

/-- The default end delimiter `"</think>"`. -/
def thinkEnd : Str := ['<', '/', 't', 'h', 'i', 'n', 'k', '>']

/-- The message `"</think>Y<think>Z"`: both delimiters occur, but the end
delimiter does not occur after the start delimiter. -/
def msgC3 : Str :=
  ['<', '/', 't', 'h', 'i', 'n', 'k', '>', 'Y',
   '<', 't', 'h', 'i', 'n', 'k', '>', 'Z']

/-- C3 counterexample: on `"</think>Y<think>Z"` — a message with malformed
delimiters (the end delimiter is missing after the start delimiter) — the
code raises `ValueError` instead of returning `("", message)` as the claim
states. -/
theorem reasoning_malformed_raises :
    get_reasoning_final thinkStart thinkEnd msgC3 = .error .valueError ∧
    get_reasoning_final thinkStart thinkEnd msgC3 ≠ .ok ([], msgC3) := by
  constructor
  · rfl
  · intro hc
    have h1 : get_reasoning_final thinkStart thinkEnd msgC3 =
        .error .valueError := rfl
    rw [h1] at hc
    exact Except.noConfusion hc

/-- C3 amended: with non-empty delimiters, (i) if either delimiter is
absent from the message the whole text is returned as the final answer
with empty reasoning; (ii) if both occur and the segment of the message
between the first occurrence of the start delimiter and the next start
delimiter (or the end) splits at the end delimiter into exactly two
pieces, those pieces are returned as reasoning and final answer; (iii) in
every other case where both delimiters occur, the code raises
`ValueError` (rather than returning `("", message)`). -/
theorem reasoning_extraction_cases (start end_ msg : Str)
    (hs : start ≠ []) (he : end_ ≠ []) :
    ((pyContains start msg = false ∨ pyContains end_ msg = false) →
      get_reasoning_final start end_ msg = .ok ([], msg)) ∧
    (∀ p0 p1 rest r f, pyContains start msg = true →
      pyContains end_ msg = true → pySplit start msg = p0 :: p1 :: rest →
      pySplit end_ p1 = [r, f] →
      get_reasoning_final start end_ msg = .ok (r, f)) ∧
    (∀ p0 p1 rest, pyContains start msg = true →
      pyContains end_ msg = true → pySplit start msg = p0 :: p1 :: rest →
      (pySplit end_ p1).length ≠ 2 →
      get_reasoning_final start end_ msg = .error .valueError) := by
  refine ⟨?_, ?_, ?_⟩
  · intro hmiss
    unfold get_reasoning_final
    rcases hmiss with hm | hm <;> simp [hm]
  · intro p0 p1 rest r f hc1 hc2 hsplit hsplit2
    unfold get_reasoning_final
    rw [hc1, hc2]
    simp only [Bool.and_self, if_true, hs, if_false]
    have hlen : 1 < (pySplit start msg).length := by simp [hsplit]
    rw [dif_pos hlen]
    have hget : (pySplit start msg).get ⟨1, hlen⟩ = p1 := by simp [hsplit]
    rw [if_neg he, hget, hsplit2]
  · intro p0 p1 rest hc1 hc2 hsplit hlen2
    unfold get_reasoning_final
    rw [hc1, hc2]
    simp only [Bool.and_self, if_true, hs, if_false]
    have hlen : 1 < (pySplit start msg).length := by simp [hsplit]
    rw [dif_pos hlen]
    have hget : (pySplit start msg).get ⟨1, hlen⟩ = p1 := by simp [hsplit]
    rw [if_neg he, hget]
    match hm : pySplit end_ p1 with
    | [] => rfl
    | [a] => rfl
    | [a, b] => rw [hm] at hlen2; simp at hlen2
    | a :: b :: c :: t => rfl

/-- The message `"<think>R</think>F"`. -/
def msgC3ok : Str :=
  ['<', 't', 'h', 'i', 'n', 'k', '>', 'R',
   '<', '/', 't', 'h', 'i', 'n', 'k', '>', 'F']

/-- C3 witness: on `"<think>R</think>F"` with the default delimiters the
amended theorem yields `("R", "F")`. -/
theorem reasoning_extraction_cases_witness :
    get_reasoning_final thinkStart thinkEnd msgC3ok = .ok (['R'], ['F']) :=
  (reasoning_extraction_cases thinkStart thinkEnd msgC3ok
      (by decide) (by decide)).2.1
    [] (['R'] ++ thinkEnd ++ ['F']) [] ['R'] ['F']
    (by decide) (by decide) (by decide) (by decide)

/-! ## `LanguageModel.create` (claim C9) -/

/-- What `LanguageModel.create` observes about its argument: whether the
runtime class of the object is exactly `LLMConfig` (`type(config) is
LLMConfig`, false for every proper subclass), and the `type` tag field. -/
structure LLMConfigView where
  exact_base : Bool
  type : Option Str

/-- The concrete backend classes `create` can instantiate. -/
inductive LMKind where
  | mock
  | azure
  | openai
deriving DecidableEq

/-- `LanguageModel.create`: rejects an instance of the generic `LLMConfig`
class itself, returns `none` for a `None` config (or `None` type tag), and
otherwise dispatches on the `type` tag. -/
def create (cfg : Option LLMConfigView) : Except PyErr (Option LMKind) :=
  if (match cfg with | some c => c.exact_base | none => false) then
    .error .valueError
  else
    match cfg with
    | none => .ok none
    | some c =>
      match c.type with
      | none => .ok none
      | some t =>
        if t = ['m', 'o', 'c', 'k'] then .ok (some .mock)
        else if t = ['a', 'z', 'u', 'r', 'e'] then .ok (some .azure)
        else .ok (some .openai)

/-- C9: `create` raises `ValueError` immediately for an instance of the
abstract/generic `LLMConfig` class itself, whatever its `type` tag (no
model object is created and no retry occurs — the result is the error),
while `create(None)` returns `None` rather than raising. -/
theorem create_rejects_generic_config :
    (∀ t, create (some { exact_base := true, type := t }) =
      .error .valueError) ∧
    create none = .ok none := by
  exact ⟨fun t => rfl, rfl⟩

/-! ## `LanguageModel.user_assistant_pairs` (claim C10) -/

/-- Python slice `lst[::2]` (every second element starting at index 0). -/
def everySecond : List Str → List Str
  | [] => []
  | [x] => [x]
  | x :: _ :: rest => x :: everySecond rest

/-- `LanguageModel.user_assistant_pairs`: `zip(lst[::2], lst[1::2])`. -/
def user_assistant_pairs (lst : List Str) : List (Str × Str) :=
  List.zip (everySecond lst) (everySecond (lst.drop 1))

theorem everySecond_cons (y : Str) (rest : List Str) :
    everySecond (y :: rest) = y :: everySecond (rest.drop 1) := by
  cases rest <;> rfl

theorem user_assistant_pairs_cons2 (x y : Str) (rest : List Str) :
    user_assistant_pairs (x :: y :: rest) =
      (x, y) :: user_assistant_pairs rest := by
  unfold user_assistant_pairs
  show List.zip (x :: everySecond rest) (everySecond (y :: rest)) = _
  rw [everySecond_cons]
  rfl

theorem everySecond_length (lst : List Str) :
    (everySecond lst).length = (lst.length + 1) / 2 := by
  match lst with
  | [] => rfl
  | [x] => simp [everySecond]
  | x :: y :: rest =>
    have ih := everySecond_length rest
    simp only [everySecond, List.length_cons, ih]
    omega

theorem user_assistant_pairs_length (lst : List Str) :
    (user_assistant_pairs lst).length = lst.length / 2 := by
  unfold user_assistant_pairs
  rw [List.length_zip, everySecond_length, everySecond_length]
  cases lst with
  | nil => simp
  | cons h t => simp; omega

theorem user_assistant_pairs_get (lst : List Str) :
    ∀ i a b, (user_assistant_pairs lst)[i]? = some (a, b) →
      lst[2 * i]? = some a ∧ lst[2 * i + 1]? = some b := by
  match lst with
  | [] => intro i a b h; simp [user_assistant_pairs, everySecond] at h
  | [x] => intro i a b h; simp [user_assistant_pairs, everySecond] at h
  | x :: y :: rest =>
    intro i a b h
    rw [user_assistant_pairs_cons2] at h
    match i with
    | 0 =>
      rw [List.getElem?_cons_zero] at h
      injection h with h2
      cases h2
      refine ⟨rfl, ?_⟩
      norm_num
    | i + 1 =>
      rw [List.getElem?_cons_succ] at h
      have ih := user_assistant_pairs_get rest i a b h
      have e1 : 2 * (i + 1) = 2 * i + 1 + 1 := by omega
      rw [e1]
      simp only [List.getElem?_cons_succ]
      exact ih

theorem user_assistant_pairs_drop_last (lst : List Str) :
    ∀ x, lst.length % 2 = 0 →
      user_assistant_pairs (lst ++ [x]) = user_assistant_pairs lst := by
  match lst with
  | [] => intro x _; rfl
  | [y] => intro x h; simp at h
  | y :: z :: rest =>
    intro x h
    simp only [List.length_cons] at h
    have hr : rest.length % 2 = 0 := by omega
    rw [List.cons_append, List.cons_append, user_assistant_pairs_cons2,
      user_assistant_pairs_cons2,
      user_assistant_pairs_drop_last rest x hr]

/-- C10: `user_assistant_pairs` returns exactly `⌊n/2⌋` pairs, the `i`-th
pair being the elements at positions `2i` and `2i+1`; appending one final
element to an even-length list leaves the result unchanged, so the last
element of an odd-length list never appears in the output. -/
theorem user_assistant_pairs_spec (lst : List Str) :
    ((user_assistant_pairs lst).length = lst.length / 2) ∧
    (∀ i a b, (user_assistant_pairs lst)[i]? = some (a, b) →
      lst[2 * i]? = some a ∧ lst[2 * i + 1]? = some b) ∧
    (∀ x, lst.length % 2 = 0 →
      user_assistant_pairs (lst ++ [x]) = user_assistant_pairs lst) :=
  ⟨user_assistant_pairs_length lst, user_assistant_pairs_get lst,
    user_assistant_pairs_drop_last lst⟩

/-- C10 witness: on the five-element list `["a","b","c","d","e"]` the pairs
are `[("a","b"), ("c","d")]` — two pairs, the final `"e"` dropped. -/
theorem user_assistant_pairs_spec_witness :
    user_assistant_pairs [['a'], ['b'], ['c'], ['d'], ['e']] =
        [((['a'] : Str), (['b'] : Str)), (['c'], ['d'])] ∧
      (([['a'], ['b'], ['c'], ['d']] : List Str).length % 2 = 0 ∧
        user_assistant_pairs ([['a'], ['b'], ['c'], ['d']] ++ [['e']]) =
          user_assistant_pairs [['a'], ['b'], ['c'], ['d']]) :=
  ⟨rfl, by decide,
    (user_assistant_pairs_spec [['a'], ['b'], ['c'], ['d']]).2.2 ['e']
      (by decide)⟩

/-! ## Usage accounting (`LanguageModel.update_usage_cost`, claim C7)

The class-level `usage_cost_dict` (process-wide state keyed by model id)
is modelled as an explicit association list threaded through the update. -/

/-- The model-name fields of `LLMConfig` consulted by the update. -/
structure LLMConfigModels where
  chat_model : Str
  completion_model : Str

/-- The process-wide `usage_cost_dict`. -/
abbrev UsageDict := List (Str × LLMTokenUsage)

/-- Python dict assignment `d[k] = v` (replace in place, else append). -/
def dictSet (k : Str) (v : LLMTokenUsage) : UsageDict → UsageDict
  | [] => [(k, v)]
  | (k2, v2) :: rest =>
    if k2 = k then (k, v) :: rest else (k2, v2) :: dictSet k v rest

/-- `LanguageModel.update_usage_cost`: pick the chat or completion model
name, lazily create its counter, then add prompts/completions/cost and
bump the call count. -/
def update_usage_cost (cfg : LLMConfigModels) (d : UsageDict) (chat : Bool)
    (prompts completions : Int) (cost : ℚ) : UsageDict :=
  let mdl := if chat then cfg.chat_model else cfg.completion_model
  let d1 := match List.lookup mdl d with
    | none => dictSet mdl {} d
    | some _ => d
  match List.lookup mdl d1 with
  | none => d1
  | some counter =>
    dictSet mdl
      { counter with
        prompt_tokens := counter.prompt_tokens + prompts,
        completion_tokens := counter.completion_tokens + completions,
        cost := counter.cost + cost,
        calls := counter.calls + 1 } d1

theorem lookup_dictSet_self (k : Str) (v : LLMTokenUsage) (d : UsageDict) :
    List.lookup k (dictSet k v d) = some v := by
  induction d with
  | nil => simp [dictSet, List.lookup]
  | cons p rest ih =>
    obtain ⟨k2, v2⟩ := p
    by_cases h : k2 = k
    · simp [dictSet, h, List.lookup]
    · simp only [dictSet, if_neg h, List.lookup]
      have : (k == k2) = false := by
        simp [beq_iff_eq]
        exact fun he => h he.symm
      rw [this]
      exact ih

theorem lookup_dictSet_other (k k2 : Str) (v : LLMTokenUsage)
    (d : UsageDict) (hne : k2 ≠ k) :
    List.lookup k2 (dictSet k v d) = List.lookup k2 d := by
  induction d with
  | nil =>
    simp only [dictSet, List.lookup]
    have : (k2 == k) = false := by simpa [beq_iff_eq] using hne
    simp [this]
  | cons p rest ih =>
    obtain ⟨k3, v3⟩ := p
    by_cases h : k3 = k
    · subst h
      simp only [dictSet, if_pos rfl, List.lookup]
      have : (k2 == k3) = false := by simpa [beq_iff_eq] using hne
      simp [this]
    · simp only [dictSet, if_neg h, List.lookup]
      cases hbe : (k2 == k3) with
      | true => rfl
      | false => exact ih

/-- One update on a model whose counter is absent creates it. -/
theorem update_usage_cost_fresh (cfg : LLMConfigModels) (d : UsageDict)
    (p c : Int) (q : ℚ) (h0 : List.lookup cfg.chat_model d = none) :
    update_usage_cost cfg d true p c q =
      dictSet cfg.chat_model
        { prompt_tokens := p, cached_tokens := 0, completion_tokens := c,
          cost := q, calls := 1 }
        (dictSet cfg.chat_model {} d) := by
  simp only [update_usage_cost, if_true, h0, lookup_dictSet_self]
  norm_num

/-- One update on a model with an existing counter accumulates into it. -/
theorem update_usage_cost_existing (cfg : LLMConfigModels) (d : UsageDict)
    (ctr : LLMTokenUsage) (p c : Int) (q : ℚ)
    (h0 : List.lookup cfg.chat_model d = some ctr) :
    update_usage_cost cfg d true p c q =
      dictSet cfg.chat_model
        { ctr with
          prompt_tokens := ctr.prompt_tokens + p,
          completion_tokens := ctr.completion_tokens + c,
          cost := ctr.cost + q, calls := ctr.calls + 1 } d := by
  simp only [update_usage_cost, if_true, h0]

/-- C7: starting from a state with no counter for the chat model, two
consecutive updates with `(p1, c1)` and `(p2, c2)` prompt/completion
tokens leave the model's counter at `prompt = p1 + p2`,
`completion = c1 + c2`, `calls = 2` (lazily created on first use), and the
counters of every other model unchanged. -/
theorem usage_accumulates (cfg : LLMConfigModels) (d : UsageDict)
    (p1 c1 p2 c2 : Int) (q1 q2 : ℚ)
    (h0 : List.lookup cfg.chat_model d = none) :
    List.lookup cfg.chat_model
        (update_usage_cost cfg (update_usage_cost cfg d true p1 c1 q1)
          true p2 c2 q2) =
      some
        { prompt_tokens := p1 + p2, cached_tokens := 0,
          completion_tokens := c1 + c2, cost := q1 + q2, calls := 2 } ∧
    (∀ k, k ≠ cfg.chat_model →
      List.lookup k
          (update_usage_cost cfg (update_usage_cost cfg d true p1 c1 q1)
            true p2 c2 q2) =
        List.lookup k d) := by
  have h1 := update_usage_cost_fresh cfg d p1 c1 q1 h0
  have hl1 : List.lookup cfg.chat_model
      (update_usage_cost cfg d true p1 c1 q1) =
      some { prompt_tokens := p1, cached_tokens := 0,
             completion_tokens := c1, cost := q1, calls := 1 } := by
    rw [h1, lookup_dictSet_self]
  have h2 := update_usage_cost_existing cfg
    (update_usage_cost cfg d true p1 c1 q1) _ p2 c2 q2 hl1
  constructor
  · rw [h2, lookup_dictSet_self]
    norm_num
  · intro k hk
    rw [h2, lookup_dictSet_other _ _ _ _ hk, h1,
      lookup_dictSet_other _ _ _ _ hk, lookup_dictSet_other _ _ _ _ hk]

/-- C7 witness: for model `"m"` starting from the empty dict, updates with
`(100, 50)` and `(20, 10)` yield `prompt = 120`, `completion = 60`,
`calls = 2`, and a different model key `"k"` stays absent. -/
theorem usage_accumulates_witness :
    List.lookup ['m']
        (update_usage_cost ⟨['m'], ['m']⟩
          (update_usage_cost ⟨['m'], ['m']⟩ [] true 100 50 0)
          true 20 10 0) =
      some
        { prompt_tokens := 120, cached_tokens := 0, completion_tokens := 60,
          cost := 0, calls := 2 } ∧
    List.lookup ['k']
        (update_usage_cost ⟨['m'], ['m']⟩
          (update_usage_cost ⟨['m'], ['m']⟩ [] true 100 50 0)
          true 20 10 0) =
      List.lookup ['k'] ([] : UsageDict) := by
  have h := usage_accumulates ⟨['m'], ['m']⟩ [] 100 50 20 10 0 0 rfl
  refine ⟨?_, h.2 ['k'] (by decide)⟩
  rw [h.1]
  norm_num

/-! ## JSON serialization (model of `json.dumps`)

`api_dict` re-serializes structured-call arguments with `json.dumps`
(standard library).  The serializer below follows `json.dumps` with the
default separators `", "` / `": "`; non-ASCII characters are emitted
literally rather than `\uXXXX`-escaped (an equally valid JSON encoding
that decodes to the same value). -/

/-- Decimal digit character, for `n < 10`. -/
def digitChar (n : Nat) : Char := Char.ofNat (48 + n)

/-- Lowercase hexadecimal digit character, for `n < 16`. -/
def hexDigitChar (n : Nat) : Char :=
  if n < 10 then digitChar n else Char.ofNat (87 + n)

/-- Fuel-driven decimal rendering of a natural number (the fuel is always
at least the number, so the `0` case only renders `n = 0`). -/
def natCharsF : Nat → Nat → Str
  | 0, n => [digitChar (n % 10)]
  | fuel + 1, n =>
    if n < 10 then [digitChar n]
    else natCharsF fuel (n / 10) ++ [digitChar (n % 10)]

/-- Decimal rendering of a natural number. -/
def natChars (n : Nat) : Str := natCharsF n n

/-- Decimal rendering of an integer (minus sign for negatives). -/
def intChars (n : Int) : Str :=
  if n < 0 then '-' :: natChars (-n).toNat else natChars n.toNat

/-- JSON string escaping of one character, as `json.dumps` emits it. -/
def escapeChar (c : Char) : Str :=
  if c = '"' then ['\\', '"']
  else if c = '\\' then ['\\', '\\']
  else if c = '\n' then ['\\', 'n']
  else if c = '\t' then ['\\', 't']
  else if c = '\r' then ['\\', 'r']
  else if c.toNat < 32 then
    '\\' :: 'u' :: '0' :: '0' ::
      [hexDigitChar (c.toNat / 16), hexDigitChar (c.toNat % 16)]
  else [c]

/-- JSON string escaping. -/
def escapeStr (s : Str) : Str := (s.map escapeChar).flatten

mutual

/-- Model of `json.dumps` on the `Json` universe. -/
def jsonDumps : Json → Str
  | .null => "null".toList
  | .bool true => "true".toList
  | .bool false => "false".toList
  | .num n => intChars n
  | .str s => '"' :: (escapeStr s ++ ['"'])
  | .arr es => '[' :: (dumpsElems es ++ [']'])
  | .obj fs => '\x7b' :: (dumpsFields fs ++ ['\x7d'])

/-- Array elements joined by `", "`. -/
def dumpsElems : List Json → Str
  | [] => []
  | [j] => jsonDumps j
  | j :: j2 :: rest => jsonDumps j ++ ',' :: ' ' :: dumpsElems (j2 :: rest)

/-- Object fields `"key": value` joined by `", "`. -/
def dumpsFields : List (Str × Json) → Str
  | [] => []
  | [(k, v)] => '"' :: (escapeStr k ++ '"' :: ':' :: ' ' :: jsonDumps v)
  | (k, v) :: kv2 :: rest =>
    ('"' :: (escapeStr k ++ '"' :: ':' :: ' ' :: jsonDumps v)) ++
      ',' :: ' ' :: dumpsFields (kv2 :: rest)

end

/-! ## JSON parsing (model of `parse_imperfect_json`) -/

/-- JSON whitespace. -/
def isWsChar (c : Char) : Bool := c = ' ' || c = '\t' || c = '\n' || c = '\r'

/-- Skip leading whitespace. -/
def skipWs (s : Str) : Str := s.dropWhile isWsChar

/-- ASCII decimal digit test. -/
def isDigitCh (c : Char) : Bool := 48 ≤ c.toNat && c.toNat ≤ 57

/-- Numeric value of a decimal digit character. -/
def digitVal (c : Char) : Nat := c.toNat - 48

/-- Numeric value of a hexadecimal digit character. -/
def hexVal (c : Char) : Option Nat :=
  if 48 ≤ c.toNat ∧ c.toNat ≤ 57 then some (c.toNat - 48)
  else if 97 ≤ c.toNat ∧ c.toNat ≤ 102 then some (c.toNat - 87)
  else if 65 ≤ c.toNat ∧ c.toNat ≤ 70 then some (c.toNat - 55)
  else none

/-- Single-character JSON escapes. -/
def escCharOf (e : Char) : Option Char :=
  if e = '"' then some '"'
  else if e = '\\' then some '\\'
  else if e = '/' then some '/'
  else if e = 'n' then some '\n'
  else if e = 't' then some '\t'
  else if e = 'r' then some '\r'
  else if e = 'b' then some '\x08'
  else if e = 'f' then some '\x0c'
  else none

/-- Parse the body of a JSON string (after the opening quote), returning
the decoded characters and the remainder after the closing quote. -/
def parseStrBody : Str → Option (Str × Str)
  | [] => none
  | c :: rest =>
    if c = '"' then some ([], rest)
    else if c = '\\' then
      match rest with
      | [] => none
      | e :: rest2 =>
        if e = 'u' then
          match rest2 with
          | h1 :: h2 :: h3 :: h4 :: rest3 =>
            match hexVal h1, hexVal h2, hexVal h3, hexVal h4 with
            | some v1, some v2, some v3, some v4 =>
              (parseStrBody rest3).map (fun p =>
                (Char.ofNat (((v1 * 16 + v2) * 16 + v3) * 16 + v4) :: p.1,
                  p.2))
            | _, _, _, _ => none
          | _ => none
        else
          match escCharOf e with
          | some c2 => (parseStrBody rest2).map (fun p => (c2 :: p.1, p.2))
          | none => none
    else (parseStrBody rest).map (fun p => (c :: p.1, p.2))

/-- Parse a run of decimal digits as a natural number. -/
def parseNatNum (s : Str) : Option (Nat × Str) :=
  let ds := s.takeWhile isDigitCh
  if ds = [] then none
  else some (ds.foldl (fun a c => a * 10 + digitVal c) 0,
    s.dropWhile isDigitCh)

mutual

/-- Parse one JSON value (fuel-driven; the fuel bounds the nesting work
and is chosen larger than the input length at the entry point). -/
def parseVal : Nat → Str → Option (Json × Str)
  | 0, _ => none
  | fuel + 1, s =>
    match s with
    | [] => none
    | c :: rest =>
      if c = 'n' then
        match rest with
        | 'u' :: 'l' :: 'l' :: r => some (.null, r)
        | _ => none
      else if c = 't' then
        match rest with
        | 'r' :: 'u' :: 'e' :: r => some (.bool true, r)
        | _ => none
      else if c = 'f' then
        match rest with
        | 'a' :: 'l' :: 's' :: 'e' :: r => some (.bool false, r)
        | _ => none
      else if c = '"' then
        (parseStrBody rest).map (fun p => (.str p.1, p.2))
      else if c = '[' then
        match skipWs rest with
        | [] => none
        | c2 :: r2 =>
          if c2 = ']' then some (.arr [], r2)
          else (parseElems fuel (c2 :: r2)).map (fun p => (.arr p.1, p.2))
      else if c = '\x7b' then
        match skipWs rest with
        | [] => none
        | c2 :: r2 =>
          if c2 = '\x7d' then some (.obj [], r2)
          else (parseFields fuel (c2 :: r2)).map (fun p => (.obj p.1, p.2))
      else if c = '-' then
        (parseNatNum rest).map (fun p => (.num (-(p.1 : Int)), p.2))
      else if isDigitCh c then
        (parseNatNum (c :: rest)).map (fun p => (.num (p.1 : Int), p.2))
      else none

/-- Parse the elements of a non-empty JSON array, consuming the closing
bracket. -/
def parseElems : Nat → Str → Option (List Json × Str)
  | 0, _ => none
  | fuel + 1, s =>
    match parseVal fuel s with
    | none => none
    | some (j, r) =>
      match skipWs r with
      | [] => none
      | c2 :: r2 =>
        if c2 = ',' then
          match parseElems fuel (skipWs r2) with
          | none => none
          | some (es, r3) => some (j :: es, r3)
        else if c2 = ']' then some ([j], r2)
        else none

/-- Parse the fields of a non-empty JSON object, consuming the closing
brace. -/
def parseFields : Nat → Str → Option (List (Str × Json) × Str)
  | 0, _ => none
  | fuel + 1, s =>
    match s with
    | '"' :: rest =>
      match parseStrBody rest with
      | none => none
      | some (k, r) =>
        match skipWs r with
        | [] => none
        | c2 :: r2 =>
          if c2 = ':' then
            match parseVal fuel (skipWs r2) with
            | none => none
            | some (v, r3) =>
              match skipWs r3 with
              | [] => none
              | c3 :: r4 =>
                if c3 = ',' then
                  match parseFields fuel (skipWs r4) with
                  | none => none
                  | some (fs, r5) => some ((k, v) :: fs, r5)
                else if c3 = '\x7d' then some ([(k, v)], r4)
                else none
          else none
    | _ => none

end

/-- Modelled from the spec: `parse_imperfect_json` from
`langroid.parsing.parse_json` is not among the sources under verification;
the spec describes it as a best-effort ("repair-tolerant") JSON parser.
It is modelled as a JSON parser — on well-formed JSON (in particular on
everything `json.dumps` emits) any JSON parser behaves this way; the
repair heuristics for malformed input are not modelled, and inputs they
would salvage simply fail here. -/
def parse_imperfect_json (s : Str) : Option Json :=
  match parseVal (s.length + 1) (skipWs s) with
  | some (j, rest) => if skipWs rest = [] then some j else none
  | none => none

/-! ## The serializer/parser round trip

`api_dict` emits `json.dumps(arguments)` and `LLMFunctionCall.from_dict`
re-parses it; the lemmas below establish that parsing inverts dumping. -/

/-- Tails that may safely follow a rendered number (empty, or starting
with a non-digit). -/
def okTail : Str → Bool
  | [] => true
  | c :: _ => !isDigitCh c

theorem digitChar_props : ∀ n, n < 10 →
    isDigitCh (digitChar n) = true ∧ digitVal (digitChar n) = n := by
  decide

theorem hexVal_hexDigitChar : ∀ n, n < 16 →
    hexVal (hexDigitChar n) = some n := by
  decide

theorem isDigitCh_props (c : Char) (h : isDigitCh c = true) :
    c ≠ 'n' ∧ c ≠ 't' ∧ c ≠ 'f' ∧ c ≠ '"' ∧ c ≠ '[' ∧ c ≠ '\x7b' ∧
      c ≠ '-' ∧ c ≠ ']' ∧ c ≠ '\x7d' ∧ c ≠ ',' ∧ c ≠ ':' ∧
      isWsChar c = false := by
  refine ⟨?_, ?_, ?_, ?_, ?_, ?_, ?_, ?_, ?_, ?_, ?_, ?_⟩
  · rintro rfl; exact absurd h (by decide)
  · rintro rfl; exact absurd h (by decide)
  · rintro rfl; exact absurd h (by decide)
  · rintro rfl; exact absurd h (by decide)
  · rintro rfl; exact absurd h (by decide)
  · rintro rfl; exact absurd h (by decide)
  · rintro rfl; exact absurd h (by decide)
  · rintro rfl; exact absurd h (by decide)
  · rintro rfl; exact absurd h (by decide)
  · rintro rfl; exact absurd h (by decide)
  · rintro rfl; exact absurd h (by decide)
  · cases hw : isWsChar c with
    | false => rfl
    | true =>
      exfalso
      simp only [isWsChar, Bool.or_eq_true, decide_eq_true_eq] at hw
      rcases hw with ((h1 | h1) | h1) | h1 <;> subst h1 <;>
        exact absurd h (by decide)

theorem natCharsF_congr (n : Nat) : ∀ f1 f2, n ≤ f1 → n ≤ f2 →
    natCharsF f1 n = natCharsF f2 n := by
  induction n using Nat.strong_induction_on with
  | _ n ih =>
    intro f1 f2 h1 h2
    match f1, f2 with
    | 0, 0 => rfl
    | 0, f2 + 1 =>
      have hn : n = 0 := by omega
      subst hn
      simp [natCharsF]
    | f1 + 1, 0 =>
      have hn : n = 0 := by omega
      subst hn
      simp [natCharsF]
    | f1 + 1, f2 + 1 =>
      simp only [natCharsF]
      by_cases hlt : n < 10
      · simp [hlt]
      · have hdiv : n / 10 < n := Nat.div_lt_self (by omega) (by norm_num)
        simp only [hlt, if_false]
        rw [ih (n / 10) hdiv f1 f2 (by omega) (by omega)]

theorem natChars_lt10 (n : Nat) (h : n < 10) : natChars n = [digitChar n] := by
  unfold natChars
  match n with
  | 0 => simp [natCharsF]
  | m + 1 => simp [natCharsF, h]

theorem natChars_ge10 (n : Nat) (h : 10 ≤ n) :
    natChars n = natChars (n / 10) ++ [digitChar (n % 10)] := by
  obtain ⟨m, rfl⟩ : ∃ m, n = m + 1 := ⟨n - 1, by omega⟩
  have hdiv : (m + 1) / 10 < m + 1 := Nat.div_lt_self (by omega) (by norm_num)
  show natCharsF (m + 1) (m + 1) = _
  simp only [natCharsF, if_neg (by omega : ¬ m + 1 < 10)]
  rw [natCharsF_congr ((m + 1) / 10) m ((m + 1) / 10) (by omega) (by omega)]
  rfl

theorem natChars_digits (n : Nat) :
    natChars n ≠ [] ∧ ∀ c ∈ natChars n, isDigitCh c = true := by
  induction n using Nat.strong_induction_on with
  | _ n ih =>
    by_cases h : n < 10
    · rw [natChars_lt10 n h]
      refine ⟨by simp, ?_⟩
      intro c hc
      simp only [List.mem_singleton] at hc
      subst hc
      exact (digitChar_props n h).1
    · rw [natChars_ge10 n (by omega)]
      have hdiv : n / 10 < n := Nat.div_lt_self (by omega) (by norm_num)
      have ihd := ih (n / 10) hdiv
      refine ⟨by simp, ?_⟩
      intro c hc
      rw [List.mem_append] at hc
      rcases hc with hc | hc
      · exact ihd.2 c hc
      · simp only [List.mem_singleton] at hc
        subst hc
        exact (digitChar_props (n % 10) (Nat.mod_lt n (by norm_num))).1

theorem foldl_natChars (n : Nat) : ∀ a : Nat,
    (natChars n).foldl (fun a c => a * 10 + digitVal c) a =
      a * 10 ^ (natChars n).length + n := by
  induction n using Nat.strong_induction_on with
  | _ n ih =>
    intro a
    by_cases h : n < 10
    · rw [natChars_lt10 n h]
      simp [List.foldl, (digitChar_props n h).2]
    · have hdiv : n / 10 < n := Nat.div_lt_self (by omega) (by norm_num)
      rw [natChars_ge10 n (by omega), List.foldl_append, ih (n / 10) hdiv a]
      simp only [List.foldl, List.length_append, List.length_singleton]
      rw [(digitChar_props (n % 10) (Nat.mod_lt n (by norm_num))).2, pow_succ]
      ring_nf
      omega

/-- The first character of `r` (if any) fails `p`. -/
def okTailP (p : Char → Bool) : Str → Prop
  | [] => True
  | c :: _ => p c = false

theorem takeWhile_append_all (p : Char → Bool) (l r : Str)
    (hl : ∀ c ∈ l, p c = true) (hr : okTailP p r) :
    (l ++ r).takeWhile p = l ∧ (l ++ r).dropWhile p = r := by
  induction l with
  | nil =>
    simp only [List.nil_append]
    match r, hr with
    | [], _ => exact ⟨rfl, rfl⟩
    | c :: t, hr =>
      simp only [okTailP] at hr
      simp [List.takeWhile, List.dropWhile, hr]
  | cons a l ih =>
    have ha : p a = true := hl a (by simp)
    have ihr := ih (fun c hc => hl c (by simp [hc]))
    simp only [List.cons_append, List.takeWhile_cons, List.dropWhile_cons,
      ha, ihr.1, ihr.2]
    exact ⟨rfl, rfl⟩

theorem parseNatNum_natChars (n : Nat) (rest : Str)
    (ht : okTail rest = true) :
    parseNatNum (natChars n ++ rest) = some (n, rest) := by
  have hd := natChars_digits n
  have hr : okTailP isDigitCh rest := by
    match rest with
    | [] => trivial
    | c :: t => simpa [okTail] using ht
  have hsplit := takeWhile_append_all isDigitCh (natChars n) rest hd.2 hr
  unfold parseNatNum
  rw [hsplit.1, hsplit.2, if_neg hd.1]
  rw [foldl_natChars n 0]
  simp

theorem skipWs_cons_nonws (c : Char) (t : Str) (hc : isWsChar c = false) :
    skipWs (c :: t) = c :: t := by
  simp [skipWs, List.dropWhile_cons, hc]

theorem skipWs_space (t : Str) : skipWs (' ' :: t) = skipWs t := by
  simp [skipWs, List.dropWhile_cons, isWsChar]

theorem parseStrBody_cons_ord (c : Char) (X : Str) (h1 : c ≠ '"')
    (h2 : c ≠ '\\') :
    parseStrBody (c :: X) =
      (parseStrBody X).map (fun p => (c :: p.1, p.2)) := by
  rw [parseStrBody.eq_def]
  simp [h1, h2]

theorem parseStrBody_esc (e c2 : Char) (X : Str) (he : e ≠ 'u')
    (hesc : escCharOf e = some c2) :
    parseStrBody ('\\' :: e :: X) =
      (parseStrBody X).map (fun p => (c2 :: p.1, p.2)) := by
  rw [parseStrBody.eq_def]
  simp [he, hesc]

theorem parseStrBody_unicode (d1 d2 : Char) (a b : Nat) (X : Str)
    (h1 : hexVal d1 = some a) (h2 : hexVal d2 = some b) :
    parseStrBody ('\\' :: 'u' :: '0' :: '0' :: d1 :: d2 :: X) =
      (parseStrBody X).map
        (fun p => (Char.ofNat (a * 16 + b) :: p.1, p.2)) := by
  have hz : hexVal '0' = some 0 := by decide
  rw [parseStrBody.eq_def]
  simp [hz, h1, h2]

theorem parseStrBody_escape (s : Str) : ∀ rest : Str,
    parseStrBody (escapeStr s ++ '"' :: rest) = some (s, rest) := by
  induction s with
  | nil =>
    intro rest
    have h : escapeStr [] = [] := rfl
    rw [h, List.nil_append, parseStrBody.eq_def]
    simp
  | cons c t ih =>
    intro rest
    have hesc : escapeStr (c :: t) ++ '"' :: rest =
        escapeChar c ++ (escapeStr t ++ '"' :: rest) := by
      simp [escapeStr]
    rw [hesc]
    by_cases h1 : c = '"'
    · subst h1
      have he : escapeChar '"' = ['\\', '"'] := by simp [escapeChar]
      rw [he, List.cons_append, List.cons_append, List.nil_append,
        parseStrBody_esc '"' '"' _ (by decide) (by decide), ih rest]
      rfl
    by_cases h2 : c = '\\'
    · subst h2
      have he : escapeChar '\\' = ['\\', '\\'] := by simp [escapeChar, h1]
      rw [he, List.cons_append, List.cons_append, List.nil_append,
        parseStrBody_esc '\\' '\\' _ (by decide) (by decide), ih rest]
      rfl
    by_cases h3 : c = '\n'
    · subst h3
      have he : escapeChar '\n' = ['\\', 'n'] := by simp [escapeChar, h1, h2]
      rw [he, List.cons_append, List.cons_append, List.nil_append,
        parseStrBody_esc 'n' '\n' _ (by decide) (by decide), ih rest]
      rfl
    by_cases h4 : c = '\t'
    · subst h4
      have he : escapeChar '\t' = ['\\', 't'] := by
        simp [escapeChar, h1, h2, h3]
      rw [he, List.cons_append, List.cons_append, List.nil_append,
        parseStrBody_esc 't' '\t' _ (by decide) (by decide), ih rest]
      rfl
    by_cases h5 : c = '\r'
    · subst h5
      have he : escapeChar '\r' = ['\\', 'r'] := by
        simp [escapeChar, h1, h2, h3, h4]
      rw [he, List.cons_append, List.cons_append, List.nil_append,
        parseStrBody_esc 'r' '\r' _ (by decide) (by decide), ih rest]
      rfl
    by_cases h6 : c.toNat < 32
    · have he : escapeChar c = ['\\', 'u', '0', '0',
          hexDigitChar (c.toNat / 16), hexDigitChar (c.toNat % 16)] := by
        simp [escapeChar, h1, h2, h3, h4, h5, h6]
      have hdiv : c.toNat / 16 < 16 := by omega
      have hmod : c.toNat % 16 < 16 := Nat.mod_lt _ (by norm_num)
      rw [he]
      simp only [List.cons_append, List.nil_append]
      rw [parseStrBody_unicode _ _ _ _ _
        (hexVal_hexDigitChar _ hdiv) (hexVal_hexDigitChar _ hmod), ih rest]
      have hval : c.toNat / 16 * 16 + c.toNat % 16 = c.toNat := by omega
      rw [hval, Char.ofNat_toNat]
      rfl
    · have he : escapeChar c = [c] := by
        simp [escapeChar, h1, h2, h3, h4, h5, h6]
      rw [he, List.cons_append, List.nil_append,
        parseStrBody_cons_ord c _ h1 h2, ih rest]
      rfl

/-! ### Heads of rendered values -/

theorem natChars_head (n : Nat) :
    ∃ c t, natChars n = c :: t ∧ isDigitCh c = true := by
  have hd := natChars_digits n
  obtain ⟨c, t, heq⟩ := List.exists_cons_of_ne_nil hd.1
  exact ⟨c, t, heq, hd.2 c (by rw [heq]; simp)⟩

theorem jsonDumps_head (j : Json) :
    ∃ c t, jsonDumps j = c :: t ∧ isWsChar c = false ∧ c ≠ ']' ∧
      c ≠ '\x7d' := by
  match j with
  | .null => exact ⟨'n', _, rfl, by decide, by decide, by decide⟩
  | .bool true => exact ⟨'t', _, rfl, by decide, by decide, by decide⟩
  | .bool false => exact ⟨'f', _, rfl, by decide, by decide, by decide⟩
  | .num n =>
    show ∃ c t, intChars n = c :: t ∧ _
    unfold intChars
    by_cases hneg : n < 0
    · exact ⟨'-', _, by rw [if_pos hneg], by decide, by decide, by decide⟩
    · obtain ⟨c, t, heq, hdig⟩ := natChars_head n.toNat
      have hp := isDigitCh_props c hdig
      exact ⟨c, t, by rw [if_neg hneg, heq], hp.2.2.2.2.2.2.2.2.2.2.2,
        hp.2.2.2.2.2.2.2.1, hp.2.2.2.2.2.2.2.2.1⟩
  | .str s => exact ⟨'"', _, rfl, by decide, by decide, by decide⟩
  | .arr es => exact ⟨'[', _, rfl, by decide, by decide, by decide⟩
  | .obj fs => exact ⟨'\x7b', _, rfl, by decide, by decide, by decide⟩

theorem dumpsElems_head (e : Json) (t : List Json) :
    ∃ c t1, dumpsElems (e :: t) = c :: t1 ∧ isWsChar c = false ∧
      c ≠ ']' ∧ c ≠ '\x7d' := by
  obtain ⟨c, t0, heq, hws, hne1, hne2⟩ := jsonDumps_head e
  match t with
  | [] => exact ⟨c, t0, by simp [dumpsElems, heq], hws, hne1, hne2⟩
  | e2 :: t2 =>
    exact ⟨c, t0 ++ ',' :: ' ' :: dumpsElems (e2 :: t2),
      by simp [dumpsElems, heq], hws, hne1, hne2⟩

/-! ### Recursion budget for the parser -/

mutual

/-- Depth budget needed by `parseVal` on the rendering of `j`. -/
def jsonSize : Json → Nat
  | .null => 1
  | .bool _ => 1
  | .num _ => 1
  | .str _ => 1
  | .arr es => 1 + sizeElems es
  | .obj fs => 1 + sizeFields fs

/-- Budget needed by `parseElems` on rendered elements. -/
def sizeElems : List Json → Nat
  | [] => 0
  | j :: t => 1 + jsonSize j + sizeElems t

/-- Budget needed by `parseFields` on rendered fields. -/
def sizeFields : List (Str × Json) → Nat
  | [] => 0
  | (_, v) :: t => 1 + jsonSize v + sizeFields t

end

theorem jsonSize_pos (j : Json) : 1 ≤ jsonSize j := by
  cases j <;> simp [jsonSize]

theorem okTail_cons (c : Char) (X : Str) : okTail (c :: X) = !isDigitCh c :=
  rfl

theorem sizeElems_cons (e : Json) (t : List Json) :
    sizeElems (e :: t) = 1 + jsonSize e + sizeElems t := rfl

theorem sizeFields_cons (k : Str) (v : Json) (t : List (Str × Json)) :
    sizeFields ((k, v) :: t) = 1 + jsonSize v + sizeFields t := rfl

theorem dumpsFields_head (k : Str) (v : Json) (t : List (Str × Json)) :
    ∃ t1, dumpsFields ((k, v) :: t) = '"' :: t1 := by
  match t with
  | [] => exact ⟨_, rfl⟩
  | kv2 :: t2 =>
    refine ⟨(escapeStr k ++ '"' :: ':' :: ' ' :: jsonDumps v) ++
      ',' :: ' ' :: dumpsFields (kv2 :: t2), ?_⟩
    simp [dumpsFields]

/-! ### The parser inverts the serializer -/

mutual

theorem parseVal_dumps (j : Json) : ∀ (fuel : Nat) (rest : Str),
    jsonSize j ≤ fuel → okTail rest = true →
    parseVal fuel (jsonDumps j ++ rest) = some (j, rest) := by
  match j with
  | .null =>
    intro fuel rest hf ht
    obtain ⟨f, rfl⟩ : ∃ f, fuel = f + 1 :=
      ⟨fuel - 1, by have := jsonSize_pos .null; omega⟩
    show parseVal (f + 1) (['n', 'u', 'l', 'l'] ++ rest) = _
    simp only [List.cons_append, List.nil_append]
    rw [parseVal.eq_def]
    simp
  | .bool true =>
    intro fuel rest hf ht
    obtain ⟨f, rfl⟩ : ∃ f, fuel = f + 1 :=
      ⟨fuel - 1, by have := jsonSize_pos (.bool true); omega⟩
    show parseVal (f + 1) (['t', 'r', 'u', 'e'] ++ rest) = _
    simp only [List.cons_append, List.nil_append]
    rw [parseVal.eq_def]
    simp
  | .bool false =>
    intro fuel rest hf ht
    obtain ⟨f, rfl⟩ : ∃ f, fuel = f + 1 :=
      ⟨fuel - 1, by have := jsonSize_pos (.bool false); omega⟩
    show parseVal (f + 1) (['f', 'a', 'l', 's', 'e'] ++ rest) = _
    simp only [List.cons_append, List.nil_append]
    rw [parseVal.eq_def]
    simp
  | .num n =>
    intro fuel rest hf ht
    obtain ⟨f, rfl⟩ : ∃ f, fuel = f + 1 :=
      ⟨fuel - 1, by have := jsonSize_pos (.num n); omega⟩
    by_cases hneg : n < 0
    · have hd : jsonDumps (.num n) = '-' :: natChars (-n).toNat := by
        show intChars n = _
        rw [intChars, if_pos hneg]
      rw [hd, List.cons_append, parseVal.eq_def]
      have hm := parseNatNum_natChars (-n).toNat rest ht
      have hi : (((-n).toNat : Int)) = -n := Int.toNat_of_nonneg (by omega)
      simp [hm, hi]
    · obtain ⟨c, t0, heq, hdig⟩ := natChars_head n.toNat
      have hp := isDigitCh_props c hdig
      have hd : jsonDumps (.num n) = c :: t0 := by
        show intChars n = _
        rw [intChars, if_neg hneg, heq]
      rw [hd, List.cons_append, parseVal.eq_def]
      have hback : c :: (t0 ++ rest) = natChars n.toNat ++ rest := by
        rw [← List.cons_append, ← heq]
      have hm : parseNatNum (c :: (t0 ++ rest)) = some (n.toNat, rest) := by
        rw [hback]
        exact parseNatNum_natChars n.toNat rest ht
      have hi : ((n.toNat : Int)) = n := Int.toNat_of_nonneg (by omega)
      simp [hp.1, hp.2.1, hp.2.2.1, hp.2.2.2.1, hp.2.2.2.2.1,
        hp.2.2.2.2.2.1, hp.2.2.2.2.2.2.1, hdig, hm, hi]
  | .str s =>
    intro fuel rest hf ht
    obtain ⟨f, rfl⟩ : ∃ f, fuel = f + 1 :=
      ⟨fuel - 1, by have := jsonSize_pos (.str s); omega⟩
    have hd : jsonDumps (.str s) ++ rest =
        '"' :: (escapeStr s ++ '"' :: rest) := by
      show ('"' :: (escapeStr s ++ ['"'])) ++ rest = _
      simp
    rw [hd, parseVal.eq_def]
    simp [parseStrBody_escape s rest]
  | .arr [] =>
    intro fuel rest hf ht
    obtain ⟨f, rfl⟩ : ∃ f, fuel = f + 1 :=
      ⟨fuel - 1, by have := jsonSize_pos (.arr []); omega⟩
    have hd : jsonDumps (.arr []) ++ rest = '[' :: ']' :: rest := by
      show ('[' :: (dumpsElems [] ++ [']'])) ++ rest = _
      simp [dumpsElems]
    rw [hd, parseVal.eq_def]
    simp [skipWs_cons_nonws ']' rest (by decide)]
  | .arr (e :: t) =>
    intro fuel rest hf ht
    obtain ⟨f, rfl⟩ : ∃ f, fuel = f + 1 :=
      ⟨fuel - 1, by have := jsonSize_pos (.arr (e :: t)); omega⟩
    obtain ⟨c0, t1, heq, hws, hne1, hne2⟩ := dumpsElems_head e t
    have hd : jsonDumps (.arr (e :: t)) ++ rest =
        '[' :: (c0 :: (t1 ++ ']' :: rest)) := by
      show ('[' :: (dumpsElems (e :: t) ++ [']'])) ++ rest = _
      rw [heq]
      simp
    have hsz : sizeElems (e :: t) ≤ f := by
      have : jsonSize (.arr (e :: t)) = 1 + sizeElems (e :: t) := rfl
      omega
    have hpe : parseElems f (c0 :: (t1 ++ ']' :: rest)) =
        some (e :: t, rest) := by
      have hb : c0 :: (t1 ++ ']' :: rest) =
          dumpsElems (e :: t) ++ ']' :: rest := by
        rw [← List.cons_append, ← heq]
      rw [hb]
      exact parseElems_dumps (e :: t) (by simp) f rest hsz
    rw [hd, parseVal.eq_def]
    simp [skipWs_cons_nonws c0 _ hws, hne1, hpe]
  | .obj [] =>
    intro fuel rest hf ht
    obtain ⟨f, rfl⟩ : ∃ f, fuel = f + 1 :=
      ⟨fuel - 1, by have := jsonSize_pos (.obj []); omega⟩
    have hd : jsonDumps (.obj []) ++ rest = '\x7b' :: '\x7d' :: rest := by
      show ('\x7b' :: (dumpsFields [] ++ ['\x7d'])) ++ rest = _
      simp [dumpsFields]
    rw [hd, parseVal.eq_def]
    simp [skipWs_cons_nonws '\x7d' rest (by decide)]
  | .obj ((k, v) :: t) =>
    intro fuel rest hf ht
    obtain ⟨f, rfl⟩ : ∃ f, fuel = f + 1 :=
      ⟨fuel - 1, by have := jsonSize_pos (.obj ((k, v) :: t)); omega⟩
    obtain ⟨t1, heq⟩ := dumpsFields_head k v t
    have hd : jsonDumps (.obj ((k, v) :: t)) ++ rest =
        '\x7b' :: ('"' :: (t1 ++ '\x7d' :: rest)) := by
      show ('\x7b' :: (dumpsFields ((k, v) :: t) ++ ['\x7d'])) ++ rest = _
      rw [heq]
      simp
    have hsz : sizeFields ((k, v) :: t) ≤ f := by
      have : jsonSize (.obj ((k, v) :: t)) = 1 + sizeFields ((k, v) :: t) :=
        rfl
      omega
    have hpf : parseFields f ('"' :: (t1 ++ '\x7d' :: rest)) =
        some ((k, v) :: t, rest) := by
      have hb : '"' :: (t1 ++ '\x7d' :: rest) =
          dumpsFields ((k, v) :: t) ++ '\x7d' :: rest := by
        rw [← List.cons_append, ← heq]
      rw [hb]
      exact parseFields_dumps ((k, v) :: t) (by simp) f rest hsz
    rw [hd, parseVal.eq_def]
    simp [skipWs_cons_nonws '"' _ (by decide), hpf]

theorem parseElems_dumps (es : List Json) : es ≠ [] →
    ∀ (fuel : Nat) (rest : Str), sizeElems es ≤ fuel →
    parseElems fuel (dumpsElems es ++ ']' :: rest) = some (es, rest) := by
  match es with
  | [] => intro h; exact absurd rfl h
  | [e] =>
    intro _ fuel rest hf
    rw [sizeElems_cons] at hf
    obtain ⟨f, rfl⟩ : ∃ f, fuel = f + 1 := ⟨fuel - 1, by omega⟩
    have hse : jsonSize e ≤ f := by
      have : sizeElems ([] : List Json) = 0 := rfl
      omega
    have hd : dumpsElems [e] ++ ']' :: rest = jsonDumps e ++ ']' :: rest := by
      show jsonDumps e ++ _ = _
      rfl
    have hv : parseVal f (jsonDumps e ++ ']' :: rest) =
        some (e, ']' :: rest) :=
      parseVal_dumps e f (']' :: rest) hse (by rw [okTail_cons]; decide)
    rw [parseElems.eq_def, hd]
    simp [hv, skipWs_cons_nonws ']' rest (by decide)]
  | e :: e2 :: t =>
    intro _ fuel rest hf
    rw [sizeElems_cons] at hf
    obtain ⟨f, rfl⟩ : ∃ f, fuel = f + 1 := ⟨fuel - 1, by omega⟩
    have hse : jsonSize e ≤ f := by omega
    have hst : sizeElems (e2 :: t) ≤ f := by omega
    have hshape : dumpsElems (e :: e2 :: t) ++ ']' :: rest =
        jsonDumps e ++
          (',' :: ' ' :: (dumpsElems (e2 :: t) ++ ']' :: rest)) := by
      simp [dumpsElems]
    obtain ⟨c1, t1, heq1, hws1, _, _⟩ := dumpsElems_head e2 t
    have hskip : skipWs (dumpsElems (e2 :: t) ++ ']' :: rest) =
        dumpsElems (e2 :: t) ++ ']' :: rest := by
      rw [heq1, List.cons_append]
      exact skipWs_cons_nonws c1 _ hws1
    have hrec := parseElems_dumps (e2 :: t) (by simp) f rest hst
    have hv : parseVal f
        (jsonDumps e ++ ',' :: ' ' :: (dumpsElems (e2 :: t) ++ ']' :: rest)) =
        some (e, ',' :: ' ' :: (dumpsElems (e2 :: t) ++ ']' :: rest)) :=
      parseVal_dumps e f _ hse (by rw [okTail_cons]; decide)
    rw [parseElems.eq_def, hshape]
    simp [hv, skipWs_cons_nonws ',' _ (by decide), skipWs_space, hskip, hrec]

theorem parseFields_dumps (fs : List (Str × Json)) : fs ≠ [] →
    ∀ (fuel : Nat) (rest : Str), sizeFields fs ≤ fuel →
    parseFields fuel (dumpsFields fs ++ '\x7d' :: rest) = some (fs, rest) := by
  match fs with
  | [] => intro h; exact absurd rfl h
  | [(k, v)] =>
    intro _ fuel rest hf
    rw [sizeFields_cons] at hf
    obtain ⟨f, rfl⟩ : ∃ f, fuel = f + 1 := ⟨fuel - 1, by omega⟩
    have hsv : jsonSize v ≤ f := by
      have : sizeFields ([] : List (Str × Json)) = 0 := rfl
      omega
    have hshape : dumpsFields [(k, v)] ++ '\x7d' :: rest =
        '"' :: (escapeStr k ++
          '"' :: (':' :: ' ' :: (jsonDumps v ++ '\x7d' :: rest))) := by
      show ('"' :: (escapeStr k ++ '"' :: ':' :: ' ' :: jsonDumps v)) ++ _ = _
      simp
    obtain ⟨cv, tv, heqv, hwsv, _, _⟩ := jsonDumps_head v
    have hskip : skipWs (jsonDumps v ++ '\x7d' :: rest) =
        jsonDumps v ++ '\x7d' :: rest := by
      rw [heqv, List.cons_append]
      exact skipWs_cons_nonws cv _ hwsv
    have hk := parseStrBody_escape k
      (':' :: ' ' :: (jsonDumps v ++ '\x7d' :: rest))
    have hv : parseVal f (jsonDumps v ++ '\x7d' :: rest) =
        some (v, '\x7d' :: rest) :=
      parseVal_dumps v f ('\x7d' :: rest) hsv (by rw [okTail_cons]; decide)
    rw [parseFields.eq_def, hshape]
    simp [hk, hv, skipWs_cons_nonws ':' _ (by decide), skipWs_space, hskip,
      skipWs_cons_nonws '\x7d' rest (by decide)]
  | (k, v) :: kv2 :: t =>
    intro _ fuel rest hf
    rw [sizeFields_cons] at hf
    obtain ⟨f, rfl⟩ : ∃ f, fuel = f + 1 := ⟨fuel - 1, by omega⟩
    have hsv : jsonSize v ≤ f := by omega
    have hst : sizeFields (kv2 :: t) ≤ f := by omega
    have hshape : dumpsFields ((k, v) :: kv2 :: t) ++ '\x7d' :: rest =
        '"' :: (escapeStr k ++
          '"' :: (':' :: ' ' ::
            (jsonDumps v ++
              ',' :: ' ' :: (dumpsFields (kv2 :: t) ++ '\x7d' :: rest)))) := by
      show (('"' :: (escapeStr k ++ '"' :: ':' :: ' ' :: jsonDumps v)) ++
        ',' :: ' ' :: dumpsFields (kv2 :: t)) ++ _ = _
      simp
    obtain ⟨k2, v2⟩ := kv2
    obtain ⟨t2, heq2⟩ := dumpsFields_head k2 v2 t
    have hskip : skipWs (dumpsFields ((k2, v2) :: t) ++ '\x7d' :: rest) =
        dumpsFields ((k2, v2) :: t) ++ '\x7d' :: rest := by
      rw [heq2, List.cons_append]
      exact skipWs_cons_nonws '"' _ (by decide)
    have hrec := parseFields_dumps ((k2, v2) :: t) (by simp) f rest hst
    obtain ⟨cv, tv, heqv, hwsv, hcv1, hcv2⟩ := jsonDumps_head v
    have hskipv : skipWs
        (jsonDumps v ++
          ',' :: ' ' :: (dumpsFields ((k2, v2) :: t) ++ '\x7d' :: rest)) =
        jsonDumps v ++
          ',' :: ' ' :: (dumpsFields ((k2, v2) :: t) ++ '\x7d' :: rest) := by
      rw [heqv, List.cons_append]
      exact skipWs_cons_nonws cv _ hwsv
    have hk := parseStrBody_escape k
      (':' :: ' ' ::
        (jsonDumps v ++
          ',' :: ' ' :: (dumpsFields ((k2, v2) :: t) ++ '\x7d' :: rest)))
    have hv : parseVal f
        (jsonDumps v ++
          ',' :: ' ' :: (dumpsFields ((k2, v2) :: t) ++ '\x7d' :: rest)) =
        some (v,
          ',' :: ' ' :: (dumpsFields ((k2, v2) :: t) ++ '\x7d' :: rest)) :=
      parseVal_dumps v f _ hsv (by rw [okTail_cons]; decide)
    rw [parseFields.eq_def, hshape]
    simp [hk, hv, skipWs_cons_nonws ':' _ (by decide), skipWs_space, hskip,
      hskipv, hrec, skipWs_cons_nonws ',' _ (by decide)]

end

/-! ### The rendering is long enough for the fuel bound -/

theorem intChars_ne_nil (n : Int) : intChars n ≠ [] := by
  unfold intChars
  by_cases hneg : n < 0
  · simp [hneg]
  · rw [if_neg hneg]
    exact (natChars_digits n.toNat).1

mutual

theorem jsonSize_le_len (j : Json) : jsonSize j ≤ (jsonDumps j).length := by
  match j with
  | .null => decide
  | .bool true => decide
  | .bool false => decide
  | .num n =>
    have h := intChars_ne_nil n
    have : 1 ≤ (intChars n).length := List.length_pos.mpr h
    show jsonSize (.num n) ≤ (intChars n).length
    simp only [jsonSize]
    omega
  | .str s =>
    show jsonSize (.str s) ≤ ('"' :: (escapeStr s ++ ['"'])).length
    simp [jsonSize]
  | .arr es =>
    have h := sizeElems_le_len es
    show 1 + sizeElems es ≤ ('[' :: (dumpsElems es ++ [']'])).length
    simp only [List.length_cons, List.length_append]
    omega
  | .obj fs =>
    have h := sizeFields_le_len fs
    show 1 + sizeFields fs ≤ ('\x7b' :: (dumpsFields fs ++ ['\x7d'])).length
    simp only [List.length_cons, List.length_append]
    omega

theorem sizeElems_le_len (es : List Json) :
    sizeElems es ≤ (dumpsElems es).length + 1 := by
  match es with
  | [] => simp [sizeElems, dumpsElems]
  | [e] =>
    have h := jsonSize_le_len e
    show 1 + jsonSize e + sizeElems [] ≤ (jsonDumps e).length + 1
    have h0 : sizeElems ([] : List Json) = 0 := rfl
    omega
  | e :: e2 :: t =>
    have h1 := jsonSize_le_len e
    have h2 := sizeElems_le_len (e2 :: t)
    show 1 + jsonSize e + sizeElems (e2 :: t) ≤
      (jsonDumps e ++ ',' :: ' ' :: dumpsElems (e2 :: t)).length + 1
    simp only [List.length_append, List.length_cons]
    omega

theorem sizeFields_le_len (fs : List (Str × Json)) :
    sizeFields fs ≤ (dumpsFields fs).length + 1 := by
  match fs with
  | [] => simp [sizeFields, dumpsFields]
  | [(k, v)] =>
    have h := jsonSize_le_len v
    show 1 + jsonSize v + sizeFields [] ≤
      ('"' :: (escapeStr k ++ '"' :: ':' :: ' ' :: jsonDumps v)).length + 1
    have h0 : sizeFields ([] : List (Str × Json)) = 0 := rfl
    simp only [List.length_cons, List.length_append]
    omega
  | (k, v) :: kv2 :: t =>
    have h1 := jsonSize_le_len v
    have h2 := sizeFields_le_len (kv2 :: t)
    show 1 + jsonSize v + sizeFields (kv2 :: t) ≤
      (('"' :: (escapeStr k ++ '"' :: ':' :: ' ' :: jsonDumps v)) ++
        ',' :: ' ' :: dumpsFields (kv2 :: t)).length + 1
    simp only [List.length_cons, List.length_append]
    omega

end

/-! ### The rendering contains no newline, and needs no stripping -/

theorem hexDigitChar_ne_newline : ∀ n, n < 16 → hexDigitChar n ≠ '\n' := by
  decide

theorem isDigitCh_ne_newline (c : Char) (h : isDigitCh c = true) :
    c ≠ '\n' := by
  rintro rfl
  exact absurd h (by decide)

theorem escapeChar_no_newline (c : Char) : '\n' ∉ escapeChar c := by
  unfold escapeChar
  by_cases h1 : c = '"'
  · simp [h1]
  by_cases h2 : c = '\\'
  · simp [h1, h2]
  by_cases h3 : c = '\n'
  · simp [h1, h2, h3]
  by_cases h4 : c = '\t'
  · simp [h1, h2, h3, h4]
  by_cases h5 : c = '\r'
  · simp [h1, h2, h3, h4, h5]
  by_cases h6 : c.toNat < 32
  · simp only [h1, h2, h3, h4, h5, h6, if_false, if_true, List.mem_cons,
      List.not_mem_nil, or_false]
    push_neg
    refine ⟨by decide, by decide, by decide, by decide, ?_, ?_⟩
    · exact fun he => hexDigitChar_ne_newline (c.toNat / 16) (by omega) he.symm
    · exact fun he =>
        hexDigitChar_ne_newline (c.toNat % 16)
          (Nat.mod_lt _ (by norm_num)) he.symm
  · simp only [h1, h2, h3, h4, h5, h6, if_false, List.mem_singleton]
    exact fun he => h3 he.symm

theorem escapeStr_no_newline (s : Str) : '\n' ∉ escapeStr s := by
  intro hmem
  unfold escapeStr at hmem
  rw [List.mem_flatten] at hmem
  obtain ⟨l, hl, hml⟩ := hmem
  rw [List.mem_map] at hl
  obtain ⟨c, _, rfl⟩ := hl
  exact escapeChar_no_newline c hml

theorem natChars_no_newline (n : Nat) : '\n' ∉ natChars n := by
  intro hmem
  exact isDigitCh_ne_newline '\n' ((natChars_digits n).2 '\n' hmem) rfl

mutual

theorem jsonDumps_no_newline (j : Json) : '\n' ∉ jsonDumps j := by
  match j with
  | .null => decide
  | .bool true => decide
  | .bool false => decide
  | .num n =>
    show '\n' ∉ intChars n
    unfold intChars
    by_cases hneg : n < 0
    · rw [if_pos hneg]
      intro hm
      rcases List.mem_cons.mp hm with h | h
      · exact absurd h (by decide)
      · exact natChars_no_newline _ h
    · rw [if_neg hneg]
      exact natChars_no_newline _
  | .str s =>
    show '\n' ∉ '"' :: (escapeStr s ++ ['"'])
    intro hm
    rcases List.mem_cons.mp hm with h | h
    · exact absurd h (by decide)
    rcases List.mem_append.mp h with h | h
    · exact escapeStr_no_newline s h
    · exact absurd h (by decide)
  | .arr es =>
    show '\n' ∉ '[' :: (dumpsElems es ++ [']'])
    intro hm
    rcases List.mem_cons.mp hm with h | h
    · exact absurd h (by decide)
    rcases List.mem_append.mp h with h | h
    · exact dumpsElems_no_newline es h
    · exact absurd h (by decide)
  | .obj fs =>
    show '\n' ∉ '\x7b' :: (dumpsFields fs ++ ['\x7d'])
    intro hm
    rcases List.mem_cons.mp hm with h | h
    · exact absurd h (by decide)
    rcases List.mem_append.mp h with h | h
    · exact dumpsFields_no_newline fs h
    · exact absurd h (by decide)

theorem dumpsElems_no_newline (es : List Json) : '\n' ∉ dumpsElems es := by
  match es with
  | [] => simp [dumpsElems]
  | [e] =>
    show '\n' ∉ jsonDumps e
    exact jsonDumps_no_newline e
  | e :: e2 :: t =>
    show '\n' ∉ jsonDumps e ++ ',' :: ' ' :: dumpsElems (e2 :: t)
    intro hm
    rcases List.mem_append.mp hm with h | h
    · exact jsonDumps_no_newline e h
    rcases List.mem_cons.mp h with h | h
    · exact absurd h (by decide)
    rcases List.mem_cons.mp h with h | h
    · exact absurd h (by decide)
    · exact dumpsElems_no_newline (e2 :: t) h

theorem dumpsFields_no_newline (fs : List (Str × Json)) :
    '\n' ∉ dumpsFields fs := by
  match fs with
  | [] => simp [dumpsFields]
  | [(k, v)] =>
    show '\n' ∉ '"' :: (escapeStr k ++ '"' :: ':' :: ' ' :: jsonDumps v)
    intro hm
    rcases List.mem_cons.mp hm with h | h
    · exact absurd h (by decide)
    rcases List.mem_append.mp h with h | h
    · exact escapeStr_no_newline k h
    rcases List.mem_cons.mp h with h | h
    · exact absurd h (by decide)
    rcases List.mem_cons.mp h with h | h
    · exact absurd h (by decide)
    rcases List.mem_cons.mp h with h | h
    · exact absurd h (by decide)
    · exact jsonDumps_no_newline v h
  | (k, v) :: kv2 :: t =>
    show '\n' ∉
      ('"' :: (escapeStr k ++ '"' :: ':' :: ' ' :: jsonDumps v)) ++
        ',' :: ' ' :: dumpsFields (kv2 :: t)
    intro hm
    rcases List.mem_append.mp hm with h | h
    · rcases List.mem_cons.mp h with h | h
      · exact absurd h (by decide)
      rcases List.mem_append.mp h with h | h
      · exact escapeStr_no_newline k h
      rcases List.mem_cons.mp h with h | h
      · exact absurd h (by decide)
      rcases List.mem_cons.mp h with h | h
      · exact absurd h (by decide)
      rcases List.mem_cons.mp h with h | h
      · exact absurd h (by decide)
      · exact jsonDumps_no_newline v h
    rcases List.mem_cons.mp h with h | h
    · exact absurd h (by decide)
    rcases List.mem_cons.mp h with h | h
    · exact absurd h (by decide)
    · exact dumpsFields_no_newline (kv2 :: t) h

end

theorem removeNewlines_dumps (j : Json) :
    removeNewlines (jsonDumps j) = jsonDumps j := by
  unfold removeNewlines
  rw [List.filter_eq_self]
  intro a ha
  simp only [decide_eq_true_eq]
  intro he
  subst he
  exact jsonDumps_no_newline j ha

theorem pyStrip_sandwich (a b : Char) (xs : Str) (ha : isPySpace a = false)
    (hb : isPySpace b = false) :
    pyStrip (a :: (xs ++ [b])) = a :: (xs ++ [b]) := by
  unfold pyStrip
  rw [List.dropWhile_cons_of_neg (by simp [ha])]
  have hrev : (a :: (xs ++ [b])).reverse = b :: (xs.reverse ++ [a]) := by
    simp
  rw [hrev, List.dropWhile_cons_of_neg (by simp [hb]), ← hrev,
    List.reverse_reverse]

theorem pyStrip_dumps_obj (kvs : List (Str × Json)) :
    pyStrip (jsonDumps (.obj kvs)) = jsonDumps (.obj kvs) := by
  show pyStrip ('\x7b' :: (dumpsFields kvs ++ ['\x7d'])) = _
  exact pyStrip_sandwich '\x7b' '\x7d' (dumpsFields kvs) (by decide)
    (by decide)

/-- The parser inverts the serializer on every JSON value. -/
theorem parse_dumps (j : Json) :
    parse_imperfect_json (jsonDumps j) = some j := by
  obtain ⟨c, t, heq, hws, _, _⟩ := jsonDumps_head j
  have hskip : skipWs (jsonDumps j) = jsonDumps j := by
    rw [heq]
    exact skipWs_cons_nonws c t hws
  have hsize : jsonSize j ≤ (jsonDumps j).length + 1 :=
    le_trans (jsonSize_le_len j) (by omega)
  have hv := parseVal_dumps j ((jsonDumps j).length + 1) [] hsize rfl
  rw [List.append_nil] at hv
  unfold parse_imperfect_json
  rw [hskip, hv]
  simp [skipWs]

/-! ## `LLMFunctionCall.from_dict` (claim C5) -/

/-- Errors raised while (de)serializing structured calls:
`parseFail` models an exception escaping the JSON parser itself,
`notAMapping` the `ValueError` raised when the parsed value is not a
dict, and `typeErr` the `TypeError` raised by `api_dict` when a tool
call has no `function` (`"arguments" in None` fails). -/
inductive CallErr where
  | parseFail
  | notAMapping
  | typeErr
deriving DecidableEq

/-- `LLMFunctionCall.from_dict`: reconstruct a call from the wire fields
`name` and `arguments` (a JSON-encoded string or `None`).  The argument
string is newline-stripped, `.strip()`-ped and parsed; a parsed value
that is not a mapping raises `ValueError`.  The parser is a parameter
(the source calls `parse_imperfect_json`). -/
def LLMFunctionCall.from_dict (parse : Str → Option Json) (name : Str)
    (argStr : Option Str) : Except CallErr LLMFunctionCall :=
  match argStr with
  | none => .ok { name := name, arguments := none }
  | some s =>
    match parse (pyStrip (removeNewlines s)) with
    | none => .error .parseFail
    | some j =>
      match j with
      | .obj kvs => .ok { name := name, arguments := some kvs }
      | _ => .error .notAMapping

/-- C5: `from_dict` first strips newlines (and surrounding whitespace)
from the raw argument string and parses the result; whenever the parse
succeeds with a non-mapping value the construction raises `ValueError`;
a `None` argument string constructs successfully with `arguments = None`
(and a parsed mapping is accepted as the argument dict). -/
theorem from_dict_spec (parse : Str → Option Json) (name : Str) :
    (LLMFunctionCall.from_dict parse name none =
      .ok { name := name, arguments := none }) ∧
    (∀ s j, parse (pyStrip (removeNewlines s)) = some j →
      j.isObj = false →
      LLMFunctionCall.from_dict parse name (some s) =
        .error .notAMapping) ∧
    (∀ s kvs, parse (pyStrip (removeNewlines s)) = some (.obj kvs) →
      LLMFunctionCall.from_dict parse name (some s) =
        .ok { name := name, arguments := some kvs }) := by
  refine ⟨rfl, ?_, ?_⟩
  · intro s j hp hobj
    simp only [LLMFunctionCall.from_dict, hp]
    match j, hobj with
    | .null, _ => rfl
    | .bool b, _ => rfl
    | .num n, _ => rfl
    | .str s2, _ => rfl
    | .arr es, _ => rfl
  · intro s kvs hp
    simp only [LLMFunctionCall.from_dict, hp]

/-- C5 witness: with the modelled parser, the argument string `"[1]"`
(which parses to a JSON list) raises `ValueError`, and a `None` argument
string constructs with `arguments = None`. -/
theorem from_dict_spec_witness :
    LLMFunctionCall.from_dict parse_imperfect_json ['f']
        (some ['[', '1', ']']) = .error .notAMapping ∧
    LLMFunctionCall.from_dict parse_imperfect_json ['f'] none =
      .ok { name := ['f'], arguments := none } :=
  ⟨(from_dict_spec parse_imperfect_json ['f']).2.1 ['[', '1', ']']
      (.arr [.num 1]) rfl rfl,
    (from_dict_spec parse_imperfect_json ['f']).1⟩

/-! ## `LLMMessage.api_dict` and the wire form (claims C4 and C8) -/

/-- `LLMMessage`: one entry in the message history sent to the LLM API.
File attachments are opaque payloads (their serialization is delegated
to an external `to_dict`, taken as a parameter below); the timestamp is
an opaque number. -/
structure LLMMessage where
  role : Role
  name : Option Str := none
  tool_call_id : Option Str := none
  tool_id : Str := []
  content : Str
  files : List Str := []
  function_call : Option LLMFunctionCall := none
  tool_calls : Option (List OpenAIToolCall) := none
  timestamp : Nat := 0
  chat_document_id : Str := []

/-- Wire-level content: plain text, or the multi-part array (text part
plus one serialized part per attachment) used for user turns with
files. -/
inductive WireContent where
  | text (s : Str)
  | parts (text : Str) (files : List Str)
deriving DecidableEq

/-- Wire form of a function call: the arguments are a JSON-encoded
string (or absent/None on provider wires). -/
structure WireFunctionCall where
  name : Str
  arguments : Option Str
deriving DecidableEq

/-- Wire form of a tool call. -/
structure WireToolCall where
  id : Option Str
  type : Str
  function : WireFunctionCall
deriving DecidableEq

/-- The wire form of a message produced by `api_dict`: exactly the keys
that survive (dropped `None`s and dropped internal-only fields are
`none`/absent here). -/
structure WireMessage where
  role : Role
  name : Option Str
  tool_call_id : Option Str
  content : WireContent
  function_call : Option WireFunctionCall
  tool_calls : Option (List WireToolCall)
deriving DecidableEq

/-- The `"[ADDITIONAL SYSTEM MESSAGE:]\n\n"` prefix used when recoding a
system turn as a user turn. -/
def sysMarker : Str := "[ADDITIONAL SYSTEM MESSAGE:]\n\n".toList

/-- The in-memory arguments as the JSON value `json.dumps` receives
(`None` becomes JSON `null`). -/
def argsJson : Option (List (Str × Json)) → Json
  | none => .null
  | some kvs => .obj kvs

/-- Serialize one function call for the wire: the arguments mapping (or
`None`) is string-encoded with `json.dumps`. -/
def wireFC (fc : LLMFunctionCall) : WireFunctionCall :=
  { name := fc.name, arguments := some (jsonDumps (argsJson fc.arguments)) }

/-- Serialize one tool call; a tool call without a `function` makes
`api_dict` raise (`"arguments" in None` is a `TypeError`). -/
def wireTC (tc : OpenAIToolCall) : Option WireToolCall :=
  match tc.function with
  | none => none
  | some f => some { id := tc.id, type := tc.type, function := wireFC f }

/-- Serialize a tool-call list, failing if any call lacks a `function`. -/
def wireTCs : List OpenAIToolCall → Option (List WireToolCall)
  | [] => some []
  | tc :: rest =>
    match wireTC tc with
    | none => none
    | some w =>
      match wireTCs rest with
      | none => none
      | some ws => some (w :: ws)

/-- The content computed before any system-role recoding: a multi-part
array for user turns with attachments, plain text otherwise.  `fd`
models the external `FileAttachment.to_dict(model)`. -/
def baseContent (fd : Str → Str → Str) (m : LLMMessage) (mdl : Str) :
    WireContent :=
  if m.files ≠ [] ∧ m.role = Role.user then
    .parts m.content (m.files.map (fd mdl))
  else .text m.content

/-- Prefix the system-message marker onto the content. -/
def prefixMarker : WireContent → WireContent
  | .text s => .text (sysMarker ++ s)
  | .parts t fs => .parts (sysMarker ++ t) fs

/-- The wire `name`: dropped when `None` (dropped with the other `None`
values) or when the empty string (providers reject empty names). -/
def wname (m : LLMMessage) : Option Str :=
  match m.name with
  | none => none
  | some n => if n = [] then none else some n

/-- `LLMMessage.api_dict(model, has_system_role)`: serialize a turn for
the API, dropping `None` values, the empty-string `name`, and the
internal-only `tool_id`, `timestamp` and `chat_document_id`; recode a
system turn as a marked user turn when `has_system_role` is false; and
string-encode all structured-call arguments. -/
def to_wire (fd : Str → Str → Str) (m : LLMMessage) (mdl : Str)
    (hsr : Bool) : Except CallErr WireMessage :=
  let content0 := baseContent fd m mdl
  let rc : Role × WireContent :=
    if hsr = false ∧ m.role = Role.system then
      (Role.user, prefixMarker content0)
    else (m.role, content0)
  match m.tool_calls with
  | none =>
    .ok { role := rc.1, name := wname m, tool_call_id := m.tool_call_id,
          content := rc.2, function_call := m.function_call.map wireFC,
          tool_calls := none }
  | some tcs =>
    match wireTCs tcs with
    | none => .error .typeErr
    | some ws =>
      .ok { role := rc.1, name := wname m, tool_call_id := m.tool_call_id,
            content := rc.2, function_call := m.function_call.map wireFC,
            tool_calls := some ws }

/-- The text carried by wire content (the text part, for multi-part). -/
def wireText : WireContent → Str
  | .text s => s
  | .parts t _ => t

/-- `OpenAIToolCall.from_dict`: reconstruct a tool call from its wire
form through `LLMFunctionCall.from_dict`. -/
def OpenAIToolCall.from_dict (parse : Str → Option Json)
    (w : WireToolCall) : Except CallErr OpenAIToolCall :=
  match LLMFunctionCall.from_dict parse w.function.name w.function.arguments
    with
  | .error e => .error e
  | .ok f => .ok { id := w.id, type := w.type, function := some f }

/-- Reconstruct a wire tool-call list. -/
def fromWireTCs (parse : Str → Option Json) :
    List WireToolCall → Except CallErr (List OpenAIToolCall)
  | [] => .ok []
  | w :: rest =>
    match OpenAIToolCall.from_dict parse w with
    | .error e => .error e
    | .ok tc =>
      match fromWireTCs parse rest with
      | .error e => .error e
      | .ok tcs => .ok (tc :: tcs)

/-- The parts of a turn the round-trip property compares: role, text
content, and the structured calls. -/
structure ReconTurn where
  role : Role
  content : Str
  function_call : Option LLMFunctionCall
  tool_calls : Option (List OpenAIToolCall)

/-- Modelled from the spec: a whole-turn `from_wire` does not exist in
the sources (only `LLMFunctionCall.from_dict` and
`OpenAIToolCall.from_dict` do); per the spec's round-trip property it
reads back the role and the text and reconstructs every structured call
with `from_dict`. -/
def from_wire (parse : Str → Option Json) (w : WireMessage) :
    Except CallErr ReconTurn :=
  match w.function_call with
  | none =>
    match w.tool_calls with
    | none =>
      .ok { role := w.role, content := wireText w.content,
            function_call := none, tool_calls := none }
    | some ws =>
      match fromWireTCs parse ws with
      | .error e => .error e
      | .ok tcs =>
        .ok { role := w.role, content := wireText w.content,
              function_call := none, tool_calls := some tcs }
  | some wfc =>
    match LLMFunctionCall.from_dict parse wfc.name wfc.arguments with
    | .error e => .error e
    | .ok fc =>
      match w.tool_calls with
      | none =>
        .ok { role := w.role, content := wireText w.content,
              function_call := some fc, tool_calls := none }
      | some ws =>
        match fromWireTCs parse ws with
        | .error e => .error e
        | .ok tcs =>
          .ok { role := w.role, content := wireText w.content,
                function_call := some fc, tool_calls := some tcs }

/-- `from_wire(to_wire(turn))` with the default `has_system_role=True`. -/
def roundTrip (parse : Str → Option Json) (fd : Str → Str → Str)
    (m : LLMMessage) (mdl : Str) : Except CallErr ReconTurn :=
  match to_wire fd m mdl true with
  | .error e => .error e
  | .ok w => from_wire parse w

/-! ## Claim C4: round-trip serialization -/

theorem from_dict_dumps (name : Str) (kvs : List (Str × Json)) :
    LLMFunctionCall.from_dict parse_imperfect_json name
        (some (jsonDumps (.obj kvs))) =
      .ok { name := name, arguments := some kvs } := by
  simp only [LLMFunctionCall.from_dict, removeNewlines_dumps (.obj kvs),
    pyStrip_dumps_obj, parse_dumps (.obj kvs)]

theorem wireTCs_all (tcs : List OpenAIToolCall)
    (h : ∀ tc ∈ tcs, ∃ f kvs, tc.function = some f ∧
      f.arguments = some kvs) :
    ∃ ws, wireTCs tcs = some ws ∧
      fromWireTCs parse_imperfect_json ws = .ok tcs := by
  induction tcs with
  | nil => exact ⟨[], rfl, rfl⟩
  | cons tc rest ih =>
    obtain ⟨f, kvs, hf, hkvs⟩ := h tc (by simp)
    obtain ⟨ws, hws, hfrom⟩ := ih (fun x hx => h x (by simp [hx]))
    obtain ⟨fname, fargs⟩ := f
    simp only at hkvs
    subst hkvs
    refine ⟨{ id := tc.id, type := tc.type,
                function := wireFC ⟨fname, some kvs⟩ } :: ws, ?_, ?_⟩
    · simp [wireTCs, wireTC, hf, hws]
    · have hw : wireFC ⟨fname, some kvs⟩ =
          { name := fname, arguments := some (jsonDumps (.obj kvs)) } := rfl
      simp only [fromWireTCs, OpenAIToolCall.from_dict, hw, from_dict_dumps,
        hfrom]
      obtain ⟨tid, ttype, tfun⟩ := tc
      simp only at hf
      subst hf
      rfl

/-- A turn whose function call carries `arguments = None`. -/
def msgC4 : LLMMessage :=
  { role := .assistant, content := ['h', 'i'],
    function_call := some { name := ['f'], arguments := none } }

/-- C4 counterexample: for a turn whose function call has a null
arguments mapping, `api_dict` string-encodes the arguments as `"null"`,
and `from_dict` then rejects the reconstruction (`"null"` parses to a
non-mapping), so `from_wire(to_wire(turn))` raises a construction error
instead of yielding an equivalent turn. -/
theorem round_trip_null_arguments_fails :
    roundTrip parse_imperfect_json (fun _ f => f) msgC4 ['m'] =
      .error .notAMapping := rfl

/-- C4 amended: for every turn whose structured calls all carry a
present (non-null) arguments mapping — and whose tool calls all carry a
`function` — `from_wire(to_wire(turn))` succeeds and reconstructs an
equivalent turn: same role, same text content, and the same
function/tool call names and argument mappings, the mappings surviving
the round trip through their string-encoded wire form; the fields
`tool_id`, `timestamp` and `chat_document_id` are dropped on the wire. -/
theorem wireText_baseContent (fd : Str → Str → Str) (m : LLMMessage)
    (mdl : Str) : wireText (baseContent fd m mdl) = m.content := by
  unfold baseContent
  by_cases h : m.files ≠ [] ∧ m.role = Role.user
  · rw [if_pos h]
    rfl
  · rw [if_neg h]
    rfl

theorem to_wire_true_no_tools (fd : Str → Str → Str) (m : LLMMessage)
    (mdl : Str) (h : m.tool_calls = none) :
    to_wire fd m mdl true = .ok
      { role := m.role, name := wname m, tool_call_id := m.tool_call_id,
        content := baseContent fd m mdl,
        function_call := m.function_call.map wireFC,
        tool_calls := none } := by
  unfold to_wire
  rw [h]
  simp only [Bool.true_eq_false, false_and, if_false]

theorem to_wire_true_tools (fd : Str → Str → Str) (m : LLMMessage)
    (mdl : Str) (tcs : List OpenAIToolCall) (ws : List WireToolCall)
    (h : m.tool_calls = some tcs) (hws : wireTCs tcs = some ws) :
    to_wire fd m mdl true = .ok
      { role := m.role, name := wname m, tool_call_id := m.tool_call_id,
        content := baseContent fd m mdl,
        function_call := m.function_call.map wireFC,
        tool_calls := some ws } := by
  unfold to_wire
  rw [h]
  simp only [Bool.true_eq_false, false_and, if_false, hws]

theorem round_trip_preserves_turn (fd : Str → Str → Str) (m : LLMMessage)
    (mdl : Str)
    (hfc : ∀ fc, m.function_call = some fc → fc.arguments ≠ none)
    (htc : ∀ tcs, m.tool_calls = some tcs → ∀ tc ∈ tcs,
      ∃ f kvs, tc.function = some f ∧ f.arguments = some kvs) :
    ∃ w r, to_wire fd m mdl true = .ok w ∧
      from_wire parse_imperfect_json w = .ok r ∧
      r.role = m.role ∧ r.content = m.content ∧
      r.function_call = m.function_call ∧ r.tool_calls = m.tool_calls := by
  have hct := wireText_baseContent fd m mdl
  cases hm : m.function_call with
  | none =>
    cases htc0 : m.tool_calls with
    | none =>
      refine ⟨_, ⟨m.role, m.content, none, none⟩,
        to_wire_true_no_tools fd m mdl htc0, ?_, rfl, rfl, rfl, rfl⟩
      unfold from_wire
      simp only [hm, Option.map_none', hct]
    | some tcs =>
      obtain ⟨ws, hws, hfrom⟩ := wireTCs_all tcs (htc tcs htc0)
      refine ⟨_, ⟨m.role, m.content, none, some tcs⟩,
        to_wire_true_tools fd m mdl tcs ws htc0 hws, ?_, rfl, rfl, rfl,
        rfl⟩
      unfold from_wire
      simp only [hm, Option.map_none', hfrom, hct]
  | some fc =>
    obtain ⟨fname, fargs⟩ := fc
    have hne : fargs ≠ none := hfc ⟨fname, fargs⟩ hm
    obtain ⟨kvs, hkvs⟩ := Option.ne_none_iff_exists'.mp hne
    subst hkvs
    have hfd : LLMFunctionCall.from_dict parse_imperfect_json
        (wireFC ⟨fname, some kvs⟩).name (wireFC ⟨fname, some kvs⟩).arguments =
        .ok ⟨fname, some kvs⟩ := from_dict_dumps fname kvs
    cases htc0 : m.tool_calls with
    | none =>
      refine ⟨_, ⟨m.role, m.content, some ⟨fname, some kvs⟩, none⟩,
        to_wire_true_no_tools fd m mdl htc0, ?_, rfl, rfl, rfl, rfl⟩
      unfold from_wire
      simp only [hm, Option.map_some', hfd, hct]
    | some tcs =>
      obtain ⟨ws, hws, hfrom⟩ := wireTCs_all tcs (htc tcs htc0)
      refine ⟨_, ⟨m.role, m.content, some ⟨fname, some kvs⟩, some tcs⟩,
        to_wire_true_tools fd m mdl tcs ws htc0 hws, ?_, rfl, rfl, rfl,
        rfl⟩
      unfold from_wire
      simp only [hm, Option.map_some', hfd, hfrom, hct]

/-- A concrete turn with a function call and one tool call, both with
present argument mappings. -/
def msgC4ok : LLMMessage :=
  { role := .assistant, content := ['o', 'k'],
    function_call := some
      { name := ['f'], arguments := some [(['a'], Json.num 7)] },
    tool_calls := some
      [{ id := some ['i'],
         function := some
           { name := ['g'],
             arguments := some [(['b'], Json.str ['x', '\n'])] } }] }

/-- C4 witness: the amended round-trip theorem applied to the concrete
turn above (its hypotheses hold: every call carries an argument
mapping). -/
theorem round_trip_preserves_turn_witness :
    ∃ w r, to_wire (fun _ f => f) msgC4ok ['m'] true = .ok w ∧
      from_wire parse_imperfect_json w = .ok r ∧
      r.role = msgC4ok.role ∧ r.content = msgC4ok.content ∧
      r.function_call = msgC4ok.function_call ∧
      r.tool_calls = msgC4ok.tool_calls :=
  round_trip_preserves_turn (fun _ f => f) msgC4ok ['m']
    (fun fc h => by
      simp only [msgC4ok, Option.some.injEq] at h
      subst h
      simp)
    (fun tcs h => by
      simp only [msgC4ok, Option.some.injEq] at h
      subst h
      intro tc htc
      simp only [List.mem_singleton] at htc
      subst htc
      exact ⟨_, _, rfl, rfl⟩)

/-! ## Claim C8: system-role recoding -/

theorem baseContent_system (fd : Str → Str → Str) (m : LLMMessage)
    (mdl : Str) (h : m.role = Role.system) :
    baseContent fd m mdl = .text m.content := by
  unfold baseContent
  rw [if_neg]
  rintro ⟨-, h2⟩
  rw [h] at h2
  exact Role.noConfusion h2

/-- The marker string exactly as the claim states it (no colon). -/
def claimMarker : Str := "[ADDITIONAL SYSTEM MESSAGE]".toList

/-- A concrete system turn. -/
def msgC8 : LLMMessage := { role := .system, content := ['h', 'i'] }

/-- Its wire form under `has_system_role = False`. -/
def wireC8 : WireMessage :=
  { role := .user, name := none, tool_call_id := none,
    content := .text (sysMarker ++ msgC8.content), function_call := none,
    tool_calls := none }

/-- C8 counterexample: the recoded content of a system turn does not
start with the claimed marker `"[ADDITIONAL SYSTEM MESSAGE]"` — the code
emits `"[ADDITIONAL SYSTEM MESSAGE:]"` (with a colon) followed by a
blank line. -/
theorem system_recode_marker_mismatch :
    to_wire (fun _ f => f) msgC8 ['m'] false = .ok wireC8 ∧
    wireC8.role = Role.user ∧
    List.isPrefixOf claimMarker (wireText wireC8.content) = false := by
  refine ⟨rfl, rfl, ?_⟩
  decide

theorem to_wire_tools_err (fd : Str → Str → Str) (m : LLMMessage)
    (mdl : Str) (hsr : Bool) (tcs : List OpenAIToolCall)
    (htc : m.tool_calls = some tcs) (hws : wireTCs tcs = none) :
    to_wire fd m mdl hsr = .error .typeErr := by
  unfold to_wire
  rw [htc]
  simp only [hws]

theorem to_wire_false_system_no_tools (fd : Str → Str → Str)
    (m : LLMMessage) (mdl : Str) (hrole : m.role = Role.system)
    (h : m.tool_calls = none) :
    to_wire fd m mdl false = .ok
      { role := Role.user, name := wname m, tool_call_id := m.tool_call_id,
        content := .text (sysMarker ++ m.content),
        function_call := m.function_call.map wireFC,
        tool_calls := none } := by
  unfold to_wire
  rw [h, baseContent_system fd m mdl hrole]
  simp only [hrole, eq_self_iff_true, and_self, if_true]
  rfl

theorem to_wire_false_system_tools (fd : Str → Str → Str) (m : LLMMessage)
    (mdl : Str) (hrole : m.role = Role.system) (tcs : List OpenAIToolCall)
    (ws : List WireToolCall) (h : m.tool_calls = some tcs)
    (hws : wireTCs tcs = some ws) :
    to_wire fd m mdl false = .ok
      { role := Role.user, name := wname m, tool_call_id := m.tool_call_id,
        content := .text (sysMarker ++ m.content),
        function_call := m.function_call.map wireFC,
        tool_calls := some ws } := by
  unfold to_wire
  rw [h, baseContent_system fd m mdl hrole]
  simp only [hrole, eq_self_iff_true, and_self, if_true, hws]
  rfl

theorem to_wire_false_other_no_tools (fd : Str → Str → Str)
    (m : LLMMessage) (mdl : Str) (hrole : m.role ≠ Role.system)
    (h : m.tool_calls = none) :
    to_wire fd m mdl false = .ok
      { role := m.role, name := wname m, tool_call_id := m.tool_call_id,
        content := baseContent fd m mdl,
        function_call := m.function_call.map wireFC,
        tool_calls := none } := by
  unfold to_wire
  rw [h]
  simp only [eq_false hrole, and_false, if_false]

theorem to_wire_false_other_tools (fd : Str → Str → Str) (m : LLMMessage)
    (mdl : Str) (hrole : m.role ≠ Role.system) (tcs : List OpenAIToolCall)
    (ws : List WireToolCall) (h : m.tool_calls = some tcs)
    (hws : wireTCs tcs = some ws) :
    to_wire fd m mdl false = .ok
      { role := m.role, name := wname m, tool_call_id := m.tool_call_id,
        content := baseContent fd m mdl,
        function_call := m.function_call.map wireFC,
        tool_calls := some ws } := by
  unfold to_wire
  rw [h]
  simp only [eq_false hrole, and_false, if_false, hws]

/-- C8 amended: with `has_system_role = False`, every system-role turn
is recoded on the wire as a user-role turn whose content is prefixed by
`"[ADDITIONAL SYSTEM MESSAGE:]"` followed by a blank line; turns of any
other role, and every call with `has_system_role = True`, keep their
role, and their content is serialized unchanged apart from the
attachment handling (`baseContent`; plain text whenever there are no
files). -/
theorem api_dict_system_recode (fd : Str → Str → Str) (m : LLMMessage)
    (mdl : Str) :
    (∀ w, m.role = Role.system → to_wire fd m mdl false = .ok w →
      w.role = Role.user ∧ w.content = .text (sysMarker ++ m.content)) ∧
    (∀ w, m.role ≠ Role.system → to_wire fd m mdl false = .ok w →
      w.role = m.role ∧ w.content = baseContent fd m mdl) ∧
    (∀ w, to_wire fd m mdl true = .ok w →
      w.role = m.role ∧ w.content = baseContent fd m mdl) ∧
    (m.files = [] → baseContent fd m mdl = .text m.content) := by
  refine ⟨?_, ?_, ?_, ?_⟩
  · intro w hrole hok
    cases htc : m.tool_calls with
    | none =>
      rw [to_wire_false_system_no_tools fd m mdl hrole htc] at hok
      cases hok
      exact ⟨rfl, rfl⟩
    | some tcs =>
      cases hws : wireTCs tcs with
      | none =>
        rw [to_wire_tools_err fd m mdl false tcs htc hws] at hok
        exact Except.noConfusion hok
      | some ws =>
        rw [to_wire_false_system_tools fd m mdl hrole tcs ws htc hws] at hok
        cases hok
        exact ⟨rfl, rfl⟩
  · intro w hrole hok
    cases htc : m.tool_calls with
    | none =>
      rw [to_wire_false_other_no_tools fd m mdl hrole htc] at hok
      cases hok
      exact ⟨rfl, rfl⟩
    | some tcs =>
      cases hws : wireTCs tcs with
      | none =>
        rw [to_wire_tools_err fd m mdl false tcs htc hws] at hok
        exact Except.noConfusion hok
      | some ws =>
        rw [to_wire_false_other_tools fd m mdl hrole tcs ws htc hws] at hok
        cases hok
        exact ⟨rfl, rfl⟩
  · intro w hok
    cases htc : m.tool_calls with
    | none =>
      rw [to_wire_true_no_tools fd m mdl htc] at hok
      cases hok
      exact ⟨rfl, rfl⟩
    | some tcs =>
      cases hws : wireTCs tcs with
      | none =>
        rw [to_wire_tools_err fd m mdl true tcs htc hws] at hok
        exact Except.noConfusion hok
      | some ws =>
        rw [to_wire_true_tools fd m mdl tcs ws htc hws] at hok
        cases hok
        exact ⟨rfl, rfl⟩
  · intro hfiles
    unfold baseContent
    rw [if_neg (by rintro ⟨h1, -⟩; exact h1 hfiles)]

/-- C8 witness: the amended theorem at the concrete system turn. -/
theorem api_dict_system_recode_witness :
    wireC8.role = Role.user ∧
    wireC8.content = .text (sysMarker ++ msgC8.content) :=
  (api_dict_system_recode (fun _ f => f) msgC8 ['m']).1 wireC8 rfl rfl

/-! ## Claim C6: provenance survives delegation

Modelled from the spec: the Task Engine, `ChatDocument` and the
`TaskTool` delegation handler are not among the sources under
verification (only `tests/main/test_task_tool.py` exercises them).
Following the spec (§3 Document, §4.5, §9): documents carry a `parent`
back-reference "treated as an explicit provenance id ... resolved
through an index/lookup"; the delegation handler creates a prompt
document whose parent is the delegation-call document, the child task's
documents chain back to that prompt, and the child's result is
deep-copied into the parent's history "preserving that parent id even
though it deep copies the message". -/

/-- A document: payload plus the provenance id of the document that
caused it.  A document's id is its index in the store (creation
order). -/
structure ChatDocument where
  content : Str
  parent_id : Option Nat
deriving DecidableEq

/-- The index of all documents created so far, in creation order. -/
abbrev DocStore := List ChatDocument

/-- Every parent pointer refers to a strictly earlier document. -/
def wfStore (s : DocStore) : Prop :=
  ∀ (i : Nat) (d : ChatDocument) (p : Nat),
    s[i]? = some d → d.parent_id = some p → p < i

/-- Modelled from the spec: the deep copy performed when handing the
child's result back across the parent/child boundary copies the payload
and retains the `parent` provenance id. -/
def deepCopy (s : DocStore) (i : Nat) : DocStore × Nat :=
  match s[i]? with
  | none => (s, i)
  | some d =>
    (s ++ [{ content := d.content, parent_id := d.parent_id }], s.length)

/-- Modelled from the spec: the child task's run loop, producing one
document per turn, each caused by (parented on) the previous one;
returns the store and the id of the last produced document (the child's
result). -/
def runChild : DocStore → Nat → List Str → DocStore × Nat
  | s, prev, [] => (s, prev)
  | s, prev, c :: rest =>
    runChild (s ++ [{ content := c, parent_id := some prev }]) s.length rest

/-- Modelled from the spec: the delegation handler — create the child's
prompt document with its parent id pointing at the delegation-call
document `d1`, run the child task, and deep-copy its result document
into the parent's history. -/
def taskToolDelegate (s : DocStore) (d1 : Nat) (prompt : Str)
    (steps : List Str) : DocStore × Nat :=
  let s1 := s ++ [{ content := prompt, parent_id := some d1 }]
  let r := runChild s1 s.length steps
  deepCopy r.1 r.2

/-- Walk `parent` ids from document `i` (at most `fuel` hops), listing
the visited ids. -/
def parentChain (s : DocStore) : Nat → Nat → List Nat
  | 0, i => [i]
  | fuel + 1, i =>
    match s[i]? with
    | none => [i]
    | some d =>
      match d.parent_id with
      | none => [i]
      | some p => i :: parentChain s fuel p

theorem parentChain_head (s : DocStore) (fuel i : Nat) :
    ∃ t, parentChain s fuel i = i :: t := by
  match fuel with
  | 0 => exact ⟨[], rfl⟩
  | fuel + 1 =>
    show ∃ t, (match s[i]? with
      | none => [i]
      | some d =>
        match d.parent_id with
        | none => [i]
        | some p => i :: parentChain s fuel p) = i :: t
    cases s[i]? with
    | none => exact ⟨[], rfl⟩
    | some d =>
      show ∃ t, (match d.parent_id with
        | none => [i]
        | some p => i :: parentChain s fuel p) = i :: t
      cases d.parent_id with
      | none => exact ⟨[], rfl⟩
      | some p => exact ⟨parentChain s fuel p, rfl⟩

theorem wfStore_append (s : DocStore) (c : Str) (p : Nat)
    (hwf : wfStore s) (hp : p < s.length) :
    wfStore (s ++ [{ content := c, parent_id := some p }]) := by
  unfold wfStore
  intro i d q hi hq
  by_cases hil : i < s.length
  · rw [List.getElem?_append_left hil] at hi
    exact hwf i d q hi hq
  · have hlen : i < s.length + 1 := by
      by_contra hc
      rw [List.getElem?_eq_none (by simp; omega)] at hi
      exact Option.noConfusion hi
    have hieq : i = s.length := by omega
    subst hieq
    rw [List.getElem?_append_right (le_refl _)] at hi
    simp at hi
    subst hi
    simp at hq
    omega

theorem getElem?_append_left_of_lt (s t : DocStore) (i : Nat)
    (h : i < s.length) : (s ++ t)[i]? = s[i]? :=
  List.getElem?_append_left h

/-- Walking the chain never leaves the earlier part of the store, so
appending documents does not disturb existing chains. -/
theorem parentChain_append (s t : DocStore) (hwf : wfStore s) :
    ∀ fuel i, i < s.length →
      parentChain (s ++ t) fuel i = parentChain s fuel i := by
  intro fuel
  induction fuel with
  | zero => intro i _; rfl
  | succ fuel ih =>
    intro i hi
    show (match (s ++ t)[i]? with
      | none => [i]
      | some d =>
        match d.parent_id with
        | none => [i]
        | some p => i :: parentChain (s ++ t) fuel p) =
      (match s[i]? with
      | none => [i]
      | some d =>
        match d.parent_id with
        | none => [i]
        | some p => i :: parentChain s fuel p)
    rw [getElem?_append_left_of_lt s t i hi]
    cases hd : s[i]? with
    | none => rfl
    | some d =>
      show (match d.parent_id with
        | none => [i]
        | some p => i :: parentChain (s ++ t) fuel p) =
        (match d.parent_id with
        | none => [i]
        | some p => i :: parentChain s fuel p)
      cases hp : d.parent_id with
      | none => rfl
      | some p =>
        have hpi : p < i := hwf i d p hd hp
        show i :: parentChain (s ++ t) fuel p = i :: parentChain s fuel p
        rw [ih p (by omega)]

/-- Chains strictly decrease, hence never revisit a document: the
parent chain cannot cycle. -/
theorem parentChain_decreasing (s : DocStore) (hwf : wfStore s) :
    ∀ fuel i, List.Chain' (fun a b => b < a) (parentChain s fuel i) := by
  intro fuel
  induction fuel with
  | zero => intro i; simp [parentChain]
  | succ fuel ih =>
    intro i
    show List.Chain' (fun a b => b < a) (match s[i]? with
      | none => [i]
      | some d =>
        match d.parent_id with
        | none => [i]
        | some p => i :: parentChain s fuel p)
    cases hd : s[i]? with
    | none => simp
    | some d =>
      show List.Chain' (fun a b => b < a) (match d.parent_id with
        | none => [i]
        | some p => i :: parentChain s fuel p)
      cases hp : d.parent_id with
      | none => simp
      | some p =>
        have hpi : p < i := hwf i d p hd hp
        obtain ⟨t2, ht2⟩ := parentChain_head s fuel p
        show List.Chain' (fun a b => b < a) (i :: parentChain s fuel p)
        rw [List.chain'_cons']
        refine ⟨?_, ih p⟩
        intro y hy
        rw [ht2] at hy
        simp at hy
        omega

/-- More fuel only extends the walked chain. -/
theorem parentChain_fuel_succ (s : DocStore) : ∀ fuel i,
    parentChain s fuel i <+: parentChain s (fuel + 1) i := by
  intro fuel
  induction fuel with
  | zero =>
    intro i
    obtain ⟨t, ht⟩ := parentChain_head s 1 i
    rw [ht]
    exact ⟨t, rfl⟩
  | succ fuel ih =>
    intro i
    show (match s[i]? with
      | none => [i]
      | some d =>
        match d.parent_id with
        | none => [i]
        | some p => i :: parentChain s fuel p) <+:
      (match s[i]? with
      | none => [i]
      | some d =>
        match d.parent_id with
        | none => [i]
        | some p => i :: parentChain s (fuel + 1) p)
    cases s[i]? with
    | none => exact ⟨[], by simp⟩
    | some d =>
      show (match d.parent_id with
        | none => [i]
        | some p => i :: parentChain s fuel p) <+:
        (match d.parent_id with
        | none => [i]
        | some p => i :: parentChain s (fuel + 1) p)
      cases d.parent_id with
      | none => exact ⟨[], by simp⟩
      | some p =>
        obtain ⟨t, ht⟩ := ih p
        refine ⟨t, ?_⟩
        show (i :: parentChain s fuel p) ++ t =
          i :: parentChain s (fuel + 1) p
        rw [← ht]
        simp

theorem parentChain_extend (s : DocStore) (fuel i p d1 : Nat)
    (d : ChatDocument) (hd : s[i]? = some d) (hp : d.parent_id = some p)
    (hmem : d1 ∈ parentChain s fuel p) :
    d1 ∈ parentChain s (fuel + 1) i := by
  show d1 ∈ (match s[i]? with
    | none => [i]
    | some d =>
      match d.parent_id with
      | none => [i]
      | some p => i :: parentChain s fuel p)
  rw [hd]
  show d1 ∈ (match d.parent_id with
    | none => [i]
    | some p => i :: parentChain s fuel p)
  rw [hp]
  show d1 ∈ i :: parentChain s fuel p
  simp [hmem]

/-- Invariant carried through the child run: the store stays
well-formed, the current document is in range and above the delegation
call, and the delegation call stays on its parent chain. -/
theorem runChild_reach (d1 : Nat) (steps : List Str) :
    ∀ (s : DocStore) (prev fuel : Nat), wfStore s → prev < s.length →
      d1 < prev → d1 ∈ parentChain s fuel prev →
      wfStore (runChild s prev steps).1 ∧
      (runChild s prev steps).2 < (runChild s prev steps).1.length ∧
      d1 < (runChild s prev steps).2 ∧
      s.length ≤ (runChild s prev steps).1.length ∧
      d1 ∈ parentChain (runChild s prev steps).1 (fuel + steps.length)
        (runChild s prev steps).2 := by
  induction steps with
  | nil =>
    intro s prev fuel hwf hprev hd1 hmem
    exact ⟨hwf, hprev, hd1, le_refl _, by simpa [runChild] using hmem⟩
  | cons c rest ih =>
    intro s prev fuel hwf hprev hd1 hmem
    have hwf2 := wfStore_append s c prev hwf hprev
    have hmem2 : d1 ∈ parentChain
        (s ++ [ChatDocument.mk c (some prev)]) fuel prev := by
      rw [parentChain_append s _ hwf fuel prev hprev]
      exact hmem
    have hnew :
        (s ++ [ChatDocument.mk c (some prev)])[s.length]? =
          some (ChatDocument.mk c (some prev)) := by
      rw [List.getElem?_append_right (le_refl _)]
      simp
    have hmem3 : d1 ∈ parentChain
        (s ++ [ChatDocument.mk c (some prev)]) (fuel + 1) s.length :=
      parentChain_extend _ fuel s.length prev d1 _ hnew rfl hmem2
    have hres := ih (s ++ [ChatDocument.mk c (some prev)])
      s.length (fuel + 1) hwf2 (by simp) (by omega) hmem3
    refine ⟨hres.1, hres.2.1, hres.2.2.1, ?_, ?_⟩
    · calc s.length ≤ (s ++ [ChatDocument.mk c (some prev)]).length := by
            simp
        _ ≤ _ := hres.2.2.2.1
    · have := hres.2.2.2.2
      show d1 ∈ parentChain _ (fuel + (rest.length + 1)) _
      have harith : fuel + (rest.length + 1) = (fuel + 1) + rest.length := by
        omega
      rw [harith]
      exact this

/-- C6: after a delegation (prompt document parented on the delegation
call `d1`, child task run, result deep-copied into the parent history),
the store remains well-formed (every parent pointer strictly earlier),
walking `parent` links from the copied result reaches `d1` within
`steps + 2` hops, and the chain of visited documents is strictly
decreasing — it can never cycle. -/
theorem provenance_survives_delegation (s : DocStore) (d1 : Nat)
    (prompt : Str) (steps : List Str) (hwf : wfStore s)
    (hd1 : d1 < s.length) :
    wfStore (taskToolDelegate s d1 prompt steps).1 ∧
    d1 ∈ parentChain (taskToolDelegate s d1 prompt steps).1
      (steps.length + 2) (taskToolDelegate s d1 prompt steps).2 ∧
    List.Chain' (fun a b => b < a)
      (parentChain (taskToolDelegate s d1 prompt steps).1
        (steps.length + 2) (taskToolDelegate s d1 prompt steps).2) := by
  have hwf1 := wfStore_append s prompt d1 hwf hd1
  have hprompt :
      (s ++ [ChatDocument.mk prompt (some d1)])[s.length]? =
        some (ChatDocument.mk prompt (some d1)) := by
    rw [List.getElem?_append_right (le_refl _)]
    simp
  have hmem1 : d1 ∈ parentChain
      (s ++ [ChatDocument.mk prompt (some d1)]) 1 s.length := by
    unfold parentChain
    rw [hprompt]
    simp [parentChain]
  have hrun := runChild_reach d1 steps
    (s ++ [ChatDocument.mk prompt (some d1)]) s.length 1 hwf1
    (by simp) hd1 hmem1
  set s2 := (runChild (s ++ [ChatDocument.mk prompt (some d1)])
    s.length steps).1 with hs2
  set res := (runChild (s ++ [ChatDocument.mk prompt (some d1)])
    s.length steps).2 with hres
  obtain ⟨hwf2, hr2, hd1r, hlen2, hmem2⟩ := hrun
  -- the result document exists and, since `d1` is strictly below it but
  -- on its chain, it has a parent on whose chain `d1` lies
  cases hdoc : s2[res]? with
  | none =>
    exfalso
    rw [show 1 + steps.length = steps.length + 1 from by omega] at hmem2
    unfold parentChain at hmem2
    rw [hdoc] at hmem2
    simp at hmem2
    omega
  | some dres =>
    cases hpar : dres.parent_id with
    | none =>
      exfalso
      rw [show 1 + steps.length = steps.length + 1 from by omega] at hmem2
      unfold parentChain at hmem2
      rw [hdoc] at hmem2
      change d1 ∈ (match dres.parent_id with
        | none => [res]
        | some p => res :: parentChain s2 steps.length p) at hmem2
      rw [hpar] at hmem2
      simp at hmem2
      omega
    | some p =>
      have hmemp : d1 ∈ parentChain s2 steps.length p := by
        rw [show 1 + steps.length = steps.length + 1 from by omega] at hmem2
        unfold parentChain at hmem2
        rw [hdoc] at hmem2
        change d1 ∈ (match dres.parent_id with
          | none => [res]
          | some p => res :: parentChain s2 steps.length p) at hmem2
        rw [hpar] at hmem2
        simp at hmem2
        rcases hmem2 with h | h
        · omega
        · exact h
      have hp2 : p < res := hwf2 res dres p hdoc hpar
      have hdel : taskToolDelegate s d1 prompt steps =
          (s2 ++ [ChatDocument.mk dres.content (some p)], s2.length) := by
        show deepCopy
            (runChild (s ++ [ChatDocument.mk prompt (some d1)])
              s.length steps).1
            (runChild (s ++ [ChatDocument.mk prompt (some d1)])
              s.length steps).2 = _
        rw [← hs2, ← hres]
        unfold deepCopy
        rw [hdoc]
        change (s2 ++ [ChatDocument.mk dres.content dres.parent_id],
          s2.length) = _
        rw [hpar]
      rw [hdel]
      have hwf3 : wfStore (s2 ++ [ChatDocument.mk dres.content (some p)]) :=
        wfStore_append s2 dres.content p hwf2 (by omega)
      have hcopy :
          (s2 ++ [ChatDocument.mk dres.content (some p)])[s2.length]? =
            some (ChatDocument.mk dres.content (some p)) := by
        rw [List.getElem?_append_right (le_refl _)]
        simp
      have hmem3 : d1 ∈ parentChain
          (s2 ++ [ChatDocument.mk dres.content (some p)])
          (steps.length + 1) s2.length := by
        refine parentChain_extend _ steps.length s2.length p d1 _ hcopy rfl
          ?_
        rw [parentChain_append s2 _ hwf2 steps.length p (by omega)]
        exact hmemp
      refine ⟨hwf3, ?_, parentChain_decreasing _ hwf3 _ _⟩
      have hpre : parentChain
          (s2 ++ [ChatDocument.mk dres.content (some p)])
          (steps.length + 1) s2.length <+:
          parentChain (s2 ++ [ChatDocument.mk dres.content (some p)])
            (steps.length + 2) s2.length :=
        parentChain_fuel_succ _ _ _
      exact hpre.subset hmem3

/-- A one-document parent store: the delegation-call document. -/
def storeC6 : DocStore := [ChatDocument.mk ['c'] none]

/-- C6 witness: delegating from the call document (id 0) with a
two-step child run keeps the store well-formed, the call stays on the
copied result's parent chain within four hops, and the chain strictly
decreases. -/
theorem provenance_survives_delegation_witness :
    wfStore (taskToolDelegate storeC6 0 ['p'] [['a'], ['b']]).1 ∧
    0 ∈ parentChain (taskToolDelegate storeC6 0 ['p'] [['a'], ['b']]).1
      ([['a'], ['b']].length + 2)
      (taskToolDelegate storeC6 0 ['p'] [['a'], ['b']]).2 ∧
    List.Chain' (fun a b => b < a)
      (parentChain (taskToolDelegate storeC6 0 ['p'] [['a'], ['b']]).1
        ([['a'], ['b']].length + 2)
        (taskToolDelegate storeC6 0 ['p'] [['a'], ['b']]).2) :=
  provenance_survives_delegation storeC6 0 ['p'] [['a'], ['b']]
    (by
      unfold wfStore
      intro i d p hi hp
      match i with
      | 0 =>
        simp [storeC6] at hi
        subst hi
        simp at hp
      | n + 1 => simp [storeC6] at hi)
    (by simp [storeC6])

end Langroid
